import Mathlib

/-!
# examples/geometry.js : the multi-brush composition pipeline

A shallow embedding of the three functions that carry the logic of the demo
(`randomizeBrushes`, `updateCSG`, and the part of `init` that builds the
module state), together with the two GUI triggers.

Conventions of the model.

* A JavaScript number is represented by the rational it denotes. The scalar
  arithmetic of `randomizeBrushes` (the `lerp` that feeds `setScalar`) is
  binary64 arithmetic: every operation is rounded to nearest, ties to even.
  The vector and matrix methods of three.js (`applyMatrix4`, `compose`) are
  kept as primitives over the rationals; what is stated about them is stated
  through these primitives.
* Objects have an identity, the number handed out by a single allocation
  counter (`World.nextId`).  Two references denote the same object exactly
  when the identities agree.
* The module level variables of the file are the fields of `World`.
* `Math.random`, `surfaceSampler.sample` and `performance.now` are external
  sources.  Each is an oracle indexed by the number of queries made so far;
  the `World` counts the queries.
* The boolean mesh engine is a parameter (`Evaluator`).  Every invocation is
  appended to the ghost log `World.calls` before the engine runs, so a call
  that throws is logged too.
* A thrown exception is an `Except.error`; the world reached at the throw is
  kept, so that what was (not) done before the throw can be stated.
-/

namespace GeometryExample

/-! ## three.js value types -/

/-- A three.js `Vector3`. -/
structure Vector3 where
  x : ℚ
  y : ℚ
  z : ℚ
deriving DecidableEq

/-- A three.js `Quaternion`. -/
structure Quaternion where
  x : ℚ
  y : ℚ
  z : ℚ
  w : ℚ
deriving DecidableEq

/-- A three.js `Matrix4`; `eK` is `elements[K]` (column major). -/
structure Matrix4 where
  e0 : ℚ
  e1 : ℚ
  e2 : ℚ
  e3 : ℚ
  e4 : ℚ
  e5 : ℚ
  e6 : ℚ
  e7 : ℚ
  e8 : ℚ
  e9 : ℚ
  e10 : ℚ
  e11 : ℚ
  e12 : ℚ
  e13 : ℚ
  e14 : ℚ
  e15 : ℚ
deriving DecidableEq

/-- The zero vector, the position of a newly constructed `Object3D`. -/
def Vector3.zero : Vector3 := ⟨0, 0, 0⟩

/-- The vector `(1, 1, 1)`, the scale of a newly constructed `Object3D`. -/
def Vector3.one : Vector3 := ⟨1, 1, 1⟩

/-- The identity rotation, the quaternion of a newly constructed `Object3D`. -/
def Quaternion.identity : Quaternion := ⟨0, 0, 0, 1⟩

/-- The identity matrix, the value of a newly constructed `Matrix4`. -/
def Matrix4.identity : Matrix4 :=
  ⟨1, 0, 0, 0, 0, 1, 0, 0, 0, 0, 1, 0, 0, 0, 0, 1⟩

/-- The three.js method `Vector3.setScalar( s )`: all three components become `s`. -/
def Vector3.setScalar (_v : Vector3) (s : ℚ) : Vector3 := ⟨s, s, s⟩

/-- The three.js method `Vector3.applyMatrix4( m )`, with its perspective divide. -/
def Vector3.applyMatrix4 (v : Vector3) (m : Matrix4) : Vector3 :=
  let w := 1 / (m.e3 * v.x + m.e7 * v.y + m.e11 * v.z + m.e15)
  ⟨(m.e0 * v.x + m.e4 * v.y + m.e8 * v.z + m.e12) * w,
   (m.e1 * v.x + m.e5 * v.y + m.e9 * v.z + m.e13) * w,
   (m.e2 * v.x + m.e6 * v.y + m.e10 * v.z + m.e14) * w⟩

/-! ### binary64 arithmetic

The scalar handed to `setScalar` in `randomizeBrushes` is computed by JavaScript number
operations, that is, in IEEE 754 binary64 with rounding to nearest, ties to even. A double
is represented by the rational it denotes. -/

/-- Rounding of a rational to the nearest integer, ties to the even integer. -/
def roundHalfEven (y : ℚ) : ℤ :=
  if 2 * (y - ⌊y⌋) < 1 then ⌊y⌋
  else if 1 < 2 * (y - ⌊y⌋) then ⌊y⌋ + 1
  else if ⌊y⌋ % 2 = 0 then ⌊y⌋ else ⌊y⌋ + 1

/-- The binary exponent that fixes the spacing of the doubles around `x ≥ 0`: the floor of
the base 2 logarithm, and the exponent of the smallest normal number below it. -/
def binade (x : ℚ) : ℤ :=
  if x = 0 then -1022 else max (Int.log 2 x) (-1022)

/-- The spacing of the doubles in the binade of `x ≥ 0` (53 significant bits). -/
def ulp (x : ℚ) : ℚ :=
  (2 : ℚ) ^ (binade x - 52)

/-- The binary64 value nearest to the rational `x`, ties to even, as a rational. Overflow to
infinity is not modelled. -/
def Float64.round (x : ℚ) : ℚ :=
  if x < 0 then -(roundHalfEven (-x / ulp (-x)) * ulp (-x))
  else roundHalfEven (x / ulp x) * ulp x

/-- The JavaScript sum of two numbers. -/
def Float64.add (x y : ℚ) : ℚ := Float64.round (x + y)

/-- The JavaScript difference of two numbers. -/
def Float64.sub (x y : ℚ) : ℚ := Float64.round (x - y)

/-- The JavaScript product of two numbers. -/
def Float64.mul (x y : ℚ) : ℚ := Float64.round (x * y)

/-- The number denoted by the literal `0.1`. -/
def Float64.tenth : ℚ := Float64.round (1 / 10)

/-- The number denoted by the literal `0.2`. -/
def Float64.fifth : ℚ := Float64.round (2 / 10)

/-- The three.js function `MathUtils.lerp( x, y, t )`, which is `( 1 - t ) * x + t * y`,
every operation being a binary64 operation. -/
def lerp (x y t : ℚ) : ℚ :=
  Float64.add (Float64.mul (Float64.sub 1 t) x) (Float64.mul t y)

/-- The three.js method `Matrix4.compose( position, quaternion, scale )`. -/
def Matrix4.compose (position : Vector3) (quaternion : Quaternion) (scale : Vector3) : Matrix4 :=
  let x := quaternion.x
  let y := quaternion.y
  let z := quaternion.z
  let w := quaternion.w
  let x2 := x + x
  let y2 := y + y
  let z2 := z + z
  let xx := x * x2
  let xy := x * y2
  let xz := x * z2
  let yy := y * y2
  let yz := y * z2
  let zz := z * z2
  let wx := w * x2
  let wy := w * y2
  let wz := w * z2
  let sx := scale.x
  let sy := scale.y
  let sz := scale.z
  { e0 := (1 - (yy + zz)) * sx
    e1 := (xy + wz) * sx
    e2 := (xz - wy) * sx
    e3 := 0
    e4 := (xy - wz) * sy
    e5 := (1 - (xx + zz)) * sy
    e6 := (yz + wx) * sy
    e7 := 0
    e8 := (xz + wy) * sz
    e9 := (yz - wx) * sz
    e10 := (1 - (xx + yy)) * sz
    e11 := 0
    e12 := position.x
    e13 := position.y
    e14 := position.z
    e15 := 1 }

/-! ## Solids -/

/-- The four boolean operators exported by the library. -/
inductive Operation where
  | ADDITION
  | SUBTRACTION
  | INTERSECTION
  | DIFFERENCE
deriving DecidableEq

/-- A `BufferGeometry` object: its identity and the vertex data it holds. -/
structure BufferGeometry where
  id : Nat
  vertices : List Vector3
deriving DecidableEq

/-- A `Brush` (a three.js `Mesh`): identity, geometry, local transform and the
cached world matrix. -/
structure Brush where
  id : Nat
  geometry : BufferGeometry
  position : Vector3
  quaternion : Quaternion
  scale : Vector3
  matrixWorld : Matrix4
deriving DecidableEq

/-- The three.js method `Object3D.updateMatrixWorld()` for an object whose parent (if
any) is the untransformed scene: the local matrix is recomposed from position, rotation
and scale and copied into the world matrix. -/
def Brush.updateMatrixWorld (b : Brush) : Brush :=
  { b with matrixWorld := Matrix4.compose b.position b.quaternion b.scale }

/-- A world transform is up to date when it is the matrix recomputed from the current
position, rotation and scale. -/
def Brush.upToDate (b : Brush) : Prop :=
  b.matrixWorld = Matrix4.compose b.position b.quaternion b.scale

instance (b : Brush) : Decidable b.upToDate := by
  unfold Brush.upToDate; infer_instance

/-! ## External collaborators and module state -/

/-- A thrown error. -/
structure Fault where
  message : String
deriving DecidableEq

/-- The boolean mesh engine: from the two operands (a JavaScript value that may be
`undefined`, hence `Option`) and the operator it computes the result data or throws. -/
structure Evaluator where
  compute : Option Brush → Option Brush → Operation → Except Fault (List Vector3)

/-- An invocation of `csgEvaluator.evaluate`, as logged: the two operands, the operator
and the identity of the output buffer passed as fourth argument, if one was passed. -/
structure Call where
  a : Option Brush
  b : Option Brush
  operation : Operation
  target : Option Nat
deriving DecidableEq

/-- The external value sources. -/
structure Env where
  /-- the point written by the k-th call of `surfaceSampler.sample` -/
  sample : Nat → Vector3
  /-- the value of the k-th call of `Math.random()` -/
  random : Nat → ℚ
  /-- the value of the k-th call of `window.performance.now()` -/
  now : Nat → ℚ

/-- The content of `outputContainer.innerText`: either what the page shows before the
first update, or the string made of `deltaTime.toFixed( 3 )` followed by `ms`. -/
inductive TimingText where
  | blank
  | millis (deltaTime : ℚ)
deriving DecidableEq

/-- The module state of geometry.js. -/
structure World where
  /-- allocation counter: the identity of the next object created -/
  nextId : Nat
  /-- `bunnyBrush` -/
  bunnyBrush : Brush
  /-- `brushes` -/
  brushes : List Brush
  /-- `params.operation` -/
  operation : Operation
  /-- the object referenced by `resultObject.geometry` -/
  resultGeometry : Nat
  /-- the object referenced by `wireframeResult.geometry` -/
  wireframeGeometry : Nat
  /-- contents of the geometry buffers that are written in place, by identity -/
  heap : Nat → List Vector3
  /-- `outputContainer.innerText` -/
  innerText : TimingText
  /-- number of `surfaceSampler.sample` queries made so far -/
  samples : Nat
  /-- number of `Math.random()` queries made so far -/
  randoms : Nat
  /-- number of `performance.now()` queries made so far -/
  clockReads : Nat
  /-- ghost log of the evaluator invocations made so far, oldest first -/
  calls : List Call

/-- Modelled from the spec: the object built by the constructor `new Brush( geometry )`
of the library (src/core/Brush.js is not part of the sources at hand). A Solid wraps a
geometry and has a world transform; as a three.js `Mesh` it starts at the origin,
unrotated, with unit scale and identity matrices. -/
def Brush.new (id : Nat) (geometry : BufferGeometry) : Brush :=
  { id := id
    geometry := geometry
    position := Vector3.zero
    quaternion := Quaternion.identity
    scale := Vector3.one
    matrixWorld := Matrix4.identity }

/-- The expression `new Brush( geometry )`: the new object takes the next identity. -/
def newBrush (geometry : BufferGeometry) (w : World) : Brush × World :=
  (Brush.new w.nextId geometry, { w with nextId := w.nextId + 1 })

/-- Modelled from the spec: the method `Evaluator.evaluate( a, b, operation, outputGeometry )`
of the library (src/core/Evaluator.js is not part of the sources at hand). When
`outputGeometry` is omitted it returns a new buffer; when supplied it writes in place and
returns that buffer. The invocation is logged first. -/
def evaluate (E : Evaluator) (a b : Option Brush) (operation : Operation)
    (target : Option Nat) (w : World) : Except Fault BufferGeometry × World :=
  let w1 := { w with calls := w.calls ++ [⟨a, b, operation, target⟩] }
  match E.compute a b operation with
  | .error f => (.error f, w1)
  | .ok data =>
    match target with
    | some t =>
      (.ok ⟨t, data⟩, { w1 with heap := fun i => if i = t then data else w1.heap i })
    | none =>
      (.ok ⟨w1.nextId, data⟩, { w1 with nextId := w1.nextId + 1 })

/-! ## randomizeBrushes (geometry.js, lines 222-234) -/

/-- What one iteration of the loop of `randomizeBrushes` does to the brush `b`, given
the world matrix `m` of the base solid, the sampled point and the random value. -/
def randomizeBrushes.place (m : Matrix4) (sampled : Vector3) (r : ℚ) (b : Brush) : Brush :=
  -- surfaceSampler.sample( b.position );
  let b := { b with position := sampled }
  -- b.position.applyMatrix4( bunnyBrush.matrixWorld );
  let b := { b with position := b.position.applyMatrix4 m }
  -- b.scale.setScalar( THREE.MathUtils.lerp( 0.1, 0.2, Math.random() ) );
  let b := { b with scale := b.scale.setScalar (lerp Float64.tenth Float64.fifth r) }
  -- b.updateMatrixWorld();
  b.updateMatrixWorld

/-- The body of the loop of `randomizeBrushes` for index `i`: the brush `brushes[ i ]` is
mutated in place, with one query to the sampler and one to the random source. -/
def randomizeBrushes.body (env : Env) (w : World) (i : Nat) (h : i < w.brushes.length) : World :=
  let b := w.brushes[i]
  { w with
    brushes := w.brushes.set i
      (randomizeBrushes.place w.bunnyBrush.matrixWorld (env.sample w.samples)
        (env.random w.randoms) b)
    samples := w.samples + 1
    randoms := w.randoms + 1 }

/-- The loop `for ( let i = 0; i < brushes.length; i ++ )` of `randomizeBrushes`, from
index `i` on; `fuel` bounds the number of iterations. -/
def randomizeBrushes.loop (env : Env) : Nat → Nat → World → World
  | 0, _, w => w
  | fuel + 1, i, w =>
    if h : i < w.brushes.length then
      randomizeBrushes.loop env fuel (i + 1) (randomizeBrushes.body env w i h)
    else
      w

/-- The function `randomizeBrushes()`. The loop needs at most `brushes.length` iterations. -/
def randomizeBrushes (env : Env) (w : World) : World :=
  randomizeBrushes.loop env w.brushes.length 0 w

/-! ## updateCSG (geometry.js, lines 204-220) -/

/-- The loop `for ( let i = 1, l = brushes.length; i < l; i ++ )` of `updateCSG`, from
index `i` on with the current `finalBrush`; `fuel` bounds the number of iterations. -/
def updateCSG.loop (E : Evaluator) (l : Nat) :
    Nat → Nat → Option Brush → World → Except Fault (Option Brush) × World
  | 0, _, finalBrush, w => (.ok finalBrush, w)
  | fuel + 1, i, finalBrush, w =>
    if i < l then
      -- const b = brushes[ i ];
      let b := w.brushes[i]?
      -- finalBrush = new Brush( csgEvaluator.evaluate( finalBrush, b, ADDITION ) );
      match evaluate E finalBrush b Operation.ADDITION none w with
      | (.error f, w1) => (.error f, w1)
      | (.ok g, w1) =>
        let (nb, w2) := newBrush g w1
        updateCSG.loop E l fuel (i + 1) (some nb) w2
    else
      (.ok finalBrush, w)

/-- The first part of `updateCSG` (lines 207-213): `finalBrush` starts as `brushes[ 0 ]`
and the loop runs from index 1. The loop needs at most `brushes.length` iterations. -/
def updateCSG.fold (E : Evaluator) (w : World) : Except Fault (Option Brush) × World :=
  updateCSG.loop E w.brushes.length w.brushes.length 1 w.brushes[0]? w

/-- The function `updateCSG()`. The result is the error thrown, if any, and the world
reached. -/
def updateCSG (E : Evaluator) (env : Env) (w : World) : Option Fault × World :=
  -- const startTime = window.performance.now();
  let startTime := env.now w.clockReads
  let w := { w with clockReads := w.clockReads + 1 }
  match updateCSG.fold E w with
  | (.error f, w1) => (some f, w1)
  | (.ok finalBrush, w1) =>
    -- csgEvaluator.evaluate( bunnyBrush, finalBrush, params.operation, resultObject.geometry );
    match evaluate E (some w1.bunnyBrush) finalBrush w1.operation (some w1.resultGeometry) w1 with
    | (.error f, w2) => (some f, w2)
    | (.ok _, w2) =>
      -- const deltaTime = window.performance.now() - startTime;
      let deltaTime := env.now w2.clockReads - startTime
      -- outputContainer.innerText = ...
      (none, { w2 with clockReads := w2.clockReads + 1, innerText := TimingText.millis deltaTime })

/-! ## init (geometry.js, lines 43-202) and the GUI triggers -/

/-- The loop `for ( let i = 0; i < 50; i ++ )` of `init` (lines 113-120): each iteration
makes a sphere geometry and a brush around it and pushes the brush to the pool. -/
def init.loop (sphere : List Vector3) : Nat → Nat → World → World
  | 0, _, w => w
  | fuel + 1, i, w =>
    if i < 50 then
      -- new THREE.SphereBufferGeometry( 1, 15, 15 )
      let g : BufferGeometry := ⟨w.nextId, sphere⟩
      let w := { w with nextId := w.nextId + 1 }
      -- const b = new Brush( ..., material );
      let (b, w) := newBrush g w
      -- brushes.push( b );
      init.loop sphere fuel (i + 1) { w with brushes := w.brushes ++ [b] }
    else
      w

/-- The first statements of `init` after the asset has been loaded (lines 99-108): the
base solid is built around the loaded geometry, lowered by one half and its world matrix
recomputed; the pool starts empty. `params.operation` has its initial value; before
`resultObject` is created the two geometry references hold a placeholder. -/
def init.start (bunny : List Vector3) : World :=
  -- const geometry = gltf.scene.children[ 0 ].geometry;
  let geometry : BufferGeometry := ⟨0, bunny⟩
  -- bunnyBrush = new Brush( gltf.scene.children[ 0 ].geometry, ... );
  let bunnyBrush := Brush.new 1 geometry
  -- bunnyBrush.position.y = - 0.5;
  let bunnyBrush := { bunnyBrush with position := { bunnyBrush.position with y := -(1 / 2) } }
  -- bunnyBrush.updateMatrixWorld();
  let bunnyBrush := bunnyBrush.updateMatrixWorld
  -- brushes = [];
  { nextId := 2
    bunnyBrush := bunnyBrush
    brushes := []
    operation := Operation.SUBTRACTION
    resultGeometry := 0
    wireframeGeometry := 0
    heap := fun _ => []
    innerText := TimingText.blank
    samples := 0
    randoms := 0
    clockReads := 0
    calls := [] }

/-- The part of `init` that builds the module state, from the point where the asset has
been loaded: `bunny` is the vertex data of the loaded mesh, `sphere` the vertex data of a
`SphereBufferGeometry( 1, 15, 15 )`. Rendering, lights, camera, materials and the GUI
widgets are left out. -/
def init (E : Evaluator) (env : Env) (bunny sphere : List Vector3) : Option Fault × World :=
  let w := init.start bunny
  let w := init.loop sphere 50 0 w
  -- resultObject = new THREE.Mesh( new THREE.BufferGeometry(), ... );
  let w := { w with resultGeometry := w.nextId, nextId := w.nextId + 2 }
  -- wireframeResult = new THREE.Mesh( resultObject.geometry, ... );
  let w := { w with wireframeGeometry := w.resultGeometry, nextId := w.nextId + 1 }
  -- randomizeBrushes();
  let w := randomizeBrushes env w
  -- updateCSG();
  updateCSG E env w

/-- The two triggers wired up in `init`: the `randomize` button (`params.randomize`) and a
change of the `operation` selector to the given value. -/
inductive Event where
  | randomize
  | operationChanged (operation : Operation)
deriving DecidableEq

/-- The handler of an event. `params.randomize` (lines 25-30) runs `randomizeBrushes` and
then `updateCSG`; the `onChange` handler (lines 179-183) runs `updateCSG` after the GUI
has stored the selected value in `params.operation`. -/
def fire (E : Evaluator) (env : Env) : Event → World → Option Fault × World
  | Event.randomize, w => updateCSG E env (randomizeBrushes env w)
  | Event.operationChanged operation, w => updateCSG E env { w with operation := operation }

/-- The module state after `init` and the given events, in order. An error thrown inside
a handler ends that handler only; the page keeps reacting to later events. -/
def run (E : Evaluator) (env : Env) (bunny sphere : List Vector3) (events : List Event) : World :=
  events.foldl (fun w e => (fire E env e w).2) (init E env bunny sphere).2

/-! ## The reducer as the specification words it -/

/-- One step `a ∪ b` of the fold of section 4.3: `Brush( E.evaluate( a, b, ADDITION ) )`. -/
def unionStep (E : Evaluator) (acc : Except Fault Brush × World) (b : Brush) :
    Except Fault Brush × World :=
  match acc with
  | (.error f, w) => (.error f, w)
  | (.ok a, w) =>
    match evaluate E (some a) (some b) Operation.ADDITION none w with
    | (.error f, w1) => (.error f, w1)
    | (.ok g, w1) =>
      let (nb, w2) := newBrush g w1
      (.ok nb, w2)

/-- The left fold `((brush[0] ∪ brush[1]) ∪ brush[2]) ∪ … ∪ brush[N-1]` of section 4.3
over a pool with first brush `first` and remaining brushes `rest`. -/
def unionFold (E : Evaluator) (first : Brush) (rest : List Brush) (w : World) :
    Except Fault Brush × World :=
  rest.foldl (unionStep E) (.ok first, w)

/-! ## Vocabulary for the statements -/

/-- The part of the module state that no evaluator call and no Brush construction
touches. -/
def World.fixed (w : World) :
    Brush × List Brush × Operation × Nat × Nat × TimingText × Nat × Nat × Nat :=
  (w.bunnyBrush, w.brushes, w.operation, w.resultGeometry, w.wireframeGeometry,
    w.innerText, w.samples, w.randoms, w.clockReads)

/-- What a run of the reducer over `n` further brushes, from world `w`, leaves behind:
`out` is its outcome and `new` the evaluator calls it made. `P` is any property shared by
the operands, `Q` what it implies for the composite. -/
structure FoldLog (E : Evaluator) (P : Brush → Prop) {α : Type} (Q : α → Prop) (n : Nat)
    (w : World) (out : Except Fault α × World) (new : List Call) : Prop where
  calls : out.2.calls = w.calls ++ new
  fixed : out.2.fixed = w.fixed
  heap : out.2.heap = w.heap
  length_le : new.length ≤ n
  nextId_le : w.nextId ≤ out.2.nextId
  addition : ∀ c ∈ new, c.operation = Operation.ADDITION ∧ c.target = none
  operands : ∀ c ∈ new, ∃ x y, c.a = some x ∧ c.b = some y ∧ P x ∧ P y
  failing : ∀ (k : Nat) (c : Call) (f : Fault), new[k]? = some c →
    E.compute c.a c.b c.operation = .error f → k + 1 = new.length ∧ out.1 = .error f
  done : ∀ x, out.1 = .ok x → new.length = n ∧ out.2.nextId = w.nextId + 2 * n ∧ Q x

/-- The invocation that the composition step of `updateCSG` makes in world `w` when the
reducer has produced `finalBrush`. -/
def compositionCall (w : World) (finalBrush : Option Brush) : Call :=
  ⟨some w.bunnyBrush, finalBrush, w.operation, some w.resultGeometry⟩

/-- The evaluator calls made since the log had length `before`. -/
def World.callsSince (w : World) (before : Nat) : List Call :=
  w.calls.drop before

/-! ## Concrete inputs used to instantiate the statements -/

/-- The vertex data of an operand; an `undefined` operand has none. -/
def operandVertices (o : Option Brush) : List Vector3 :=
  match o with
  | none => []
  | some b => b.geometry.vertices

/-- An evaluator that never throws: `ADDITION` concatenates the vertex data of the
operands, every other operator returns the data of the first operand. -/
def exampleEvaluator : Evaluator :=
  ⟨fun a b op =>
    match op with
    | Operation.ADDITION => .ok (operandVertices a ++ operandVertices b)
    | _ => .ok (operandVertices a)⟩

/-- An evaluator that throws whenever the second operand is the object with identity 12
and otherwise behaves as `exampleEvaluator`. -/
def throwingEvaluator : Evaluator :=
  ⟨fun a b op =>
    match b with
    | some x => if x.id = 12 then .error ⟨"degenerate operand"⟩ else exampleEvaluator.compute a b op
    | none => exampleEvaluator.compute a b op⟩

/-- External sources for examples: the k-th sample is `(k, 0, 0)`, the k-th random value
is the double `1 / 2 ^ (k + 1)` and the k-th clock reading is `k`. -/
def exampleEnv : Env :=
  ⟨fun k => ⟨k, 0, 0⟩, fun k => 1 / 2 ^ (k + 1), fun k => k⟩

/-- A freshly constructed brush with identity `id` around a one-vertex geometry. -/
def exampleBrush (id : Nat) : Brush :=
  Brush.new id ⟨id + 100, [⟨id, 0, 0⟩]⟩

/-- A module state with a pool of three brushes (identities 10, 11, 12). -/
def exampleWorld : World :=
  { nextId := 200
    bunnyBrush := Brush.new 1 ⟨0, [⟨0, 0, 0⟩]⟩
    brushes := [exampleBrush 10, exampleBrush 11, exampleBrush 12]
    operation := Operation.SUBTRACTION
    resultGeometry := 150
    wireframeGeometry := 150
    heap := fun _ => []
    innerText := TimingText.blank
    samples := 0
    randoms := 0
    clockReads := 0
    calls := [] }

/-- The same module state with a pool of one brush (identity 10). -/
def exampleWorldSingle : World :=
  { exampleWorld with brushes := [exampleBrush 10] }

/-- The module state `exampleWorld` with its pool in another order (12, 10, 11). -/
def exampleWorldPermuted : World :=
  { exampleWorld with brushes := [exampleBrush 12, exampleBrush 10, exampleBrush 11] }

/-- A measure of a solid for examples: the number of vertices of its geometry. -/
def vertexCount (b : Brush) : Nat :=
  b.geometry.vertices.length

/-- The union of a possibly absent accumulated volume with the volume of the next solid. -/
def joinVolume {V : Type} (union : V → V → V) (vol : Brush → V) (acc : Option V) (b : Brush) :
    Option V :=
  match acc with
  | none => some (vol b)
  | some u => some (union u (vol b))

/-- The state invariant behind the up-to-date transforms: the base solid and every pool
brush have an up-to-date world transform, the pool is not empty, and both operands of every
logged evaluator call were solids with an up-to-date world transform. -/
def World.transformsFresh (w : World) : Prop :=
  w.bunnyBrush.upToDate ∧ (∀ b ∈ w.brushes, b.upToDate) ∧ w.brushes ≠ [] ∧
  ∀ c ∈ w.calls, ∃ a b, c.a = some a ∧ c.b = some b ∧ a.upToDate ∧ b.upToDate

/-! ## Facts about binary64 rounding -/

theorem roundHalfEven_of_floor (y : ℚ) (f : ℤ) (h1 : (f : ℚ) ≤ y) (h2 : y < f + 1) :
    roundHalfEven y =
      if 2 * (y - f) < 1 then f
      else if 1 < 2 * (y - f) then f + 1
      else if f % 2 = 0 then f else f + 1 := by
  have hf : ⌊y⌋ = f := Int.floor_eq_iff.mpr ⟨h1, h2⟩
  simp only [roundHalfEven, hf]

theorem roundHalfEven_intCast (n : ℤ) : roundHalfEven (n : ℚ) = n := by
  rw [roundHalfEven_of_floor (n : ℚ) n le_rfl (by linarith)]
  simp

theorem roundHalfEven_sub_le (y : ℚ) : (roundHalfEven y : ℚ) - y ≤ 1 / 2 := by
  have h1 := Int.floor_le y
  have h2 := Int.lt_floor_add_one y
  unfold roundHalfEven
  split_ifs <;> push_cast <;> linarith

theorem sub_roundHalfEven_le (y : ℚ) : y - (roundHalfEven y : ℚ) ≤ 1 / 2 := by
  have h1 := Int.floor_le y
  have h2 := Int.lt_floor_add_one y
  unfold roundHalfEven
  split_ifs <;> push_cast <;> linarith

theorem roundHalfEven_mono {y z : ℚ} (h : y ≤ z) : roundHalfEven y ≤ roundHalfEven z := by
  have hfl : ⌊y⌋ ≤ ⌊z⌋ := Int.floor_mono h
  have hy1 := Int.floor_le y
  have hy2 := Int.lt_floor_add_one y
  have hz1 := Int.floor_le z
  have hz2 := Int.lt_floor_add_one z
  rcases hfl.lt_or_eq with hlt | heq
  · have hy : roundHalfEven y ≤ ⌊y⌋ + 1 := by
      unfold roundHalfEven; split_ifs <;> omega
    have hz : ⌊z⌋ ≤ roundHalfEven z := by
      unfold roundHalfEven; split_ifs <;> omega
    omega
  · unfold roundHalfEven
    rw [← heq] at hz1 hz2 ⊢
    split_ifs <;> first | omega | (exfalso; linarith)

theorem roundHalfEven_nonneg {y : ℚ} (h : 0 ≤ y) : 0 ≤ roundHalfEven y := by
  have := roundHalfEven_mono h
  rwa [show ((0 : ℚ)) = ((0 : ℤ) : ℚ) by norm_num, roundHalfEven_intCast] at this

theorem binade_ge (x : ℚ) : -1022 ≤ binade x := by
  unfold binade
  split_ifs
  · exact le_rfl
  · exact le_max_right _ _

theorem ulp_pos (x : ℚ) : 0 < ulp x := by
  unfold ulp
  positivity

theorem lt_two_zpow_binade_succ (x : ℚ) : x < (2 : ℚ) ^ (binade x + 1) := by
  unfold binade
  split_ifs with h0
  · rw [h0]; positivity
  · have h := Int.lt_zpow_succ_log_self (b := 2) (by norm_num) x
    simp only [Nat.cast_ofNat] at h
    refine lt_of_lt_of_le h ?_
    apply zpow_le_zpow_right₀ (by norm_num)
    have := le_max_left (Int.log 2 x) (-1022)
    omega

theorem two_zpow_binade_le {x : ℚ} (hx : 0 < x) (h : -1022 < binade x) :
    (2 : ℚ) ^ binade x ≤ x := by
  unfold binade at h ⊢
  rw [if_neg hx.ne'] at h ⊢
  have hlog : max (Int.log 2 x) (-1022) = Int.log 2 x := by
    rcases max_cases (Int.log 2 x) (-1022) with ⟨h1, _⟩ | ⟨h1, _⟩
    · exact h1
    · rw [h1] at h; omega
  rw [hlog]
  have := Int.zpow_log_le_self (b := 2) (by norm_num) hx
  simpa using this

theorem binade_mono {x y : ℚ} (hx : 0 ≤ x) (h : x ≤ y) : binade x ≤ binade y := by
  rcases hx.lt_or_eq with hpos | hzero
  · have hy : 0 < y := lt_of_lt_of_le hpos h
    unfold binade
    rw [if_neg hpos.ne', if_neg hy.ne']
    exact max_le_max (Int.log_mono_right hpos h) le_rfl
  · rw [← hzero]
    have : binade 0 = -1022 := by simp [binade]
    rw [this]
    exact binade_ge y

theorem binade_lt_of_lt {x : ℚ} {k : ℤ} (hx : 0 ≤ x) (hk : x < (2 : ℚ) ^ k)
    (hk' : -1022 < k) : binade x < k := by
  rcases hx.lt_or_eq with hpos | hzero
  · unfold binade
    rw [if_neg hpos.ne']
    have : Int.log 2 x < k := by
      apply (Int.lt_zpow_iff_log_lt (b := 2) (by norm_num) hpos).mp
      simpa using hk
    exact max_lt this hk'
  · rw [← hzero]
    simpa [binade] using hk'

theorem binade_eq {x : ℚ} {e : ℤ} (h1 : (2 : ℚ) ^ e ≤ x) (h2 : x < (2 : ℚ) ^ (e + 1))
    (he : -1022 ≤ e) : binade x = e := by
  have hpos : 0 < x := lt_of_lt_of_le (by positivity) h1
  unfold binade
  rw [if_neg hpos.ne']
  have hle : e ≤ Int.log 2 x := by
    apply (Int.zpow_le_iff_le_log (b := 2) (by norm_num) hpos).mp
    simpa using h1
  have hlt : Int.log 2 x < e + 1 := by
    apply (Int.lt_zpow_iff_log_lt (b := 2) (by norm_num) hpos).mp
    simpa using h2
  have : Int.log 2 x = e := by omega
  rw [this]
  exact max_eq_left he

theorem Float64.round_of_nonneg {x : ℚ} (hx : 0 ≤ x) :
    Float64.round x = roundHalfEven (x / ulp x) * ulp x := by
  unfold Float64.round
  rw [if_neg (not_lt.mpr hx)]

theorem Float64.round_nonneg {x : ℚ} (hx : 0 ≤ x) : 0 ≤ Float64.round x := by
  rw [Float64.round_of_nonneg hx]
  have h1 : 0 ≤ x / ulp x := div_nonneg hx (ulp_pos x).le
  have h2 := roundHalfEven_nonneg h1
  have h3 : (0 : ℚ) ≤ (roundHalfEven (x / ulp x) : ℚ) := by exact_mod_cast h2
  exact mul_nonneg h3 (ulp_pos x).le

theorem Float64.round_zero : Float64.round 0 = 0 := by
  rw [Float64.round_of_nonneg le_rfl]
  have : roundHalfEven ((0 : ℚ) / ulp 0) = 0 := by
    rw [zero_div]
    have := roundHalfEven_intCast 0
    simpa using this
  rw [this]
  simp

/-- The rounding error is at most half the spacing. -/
theorem Float64.round_sub_le {x : ℚ} (hx : 0 ≤ x) : Float64.round x - x ≤ ulp x / 2 := by
  rw [Float64.round_of_nonneg hx]
  have hq := ulp_pos x
  have h := roundHalfEven_sub_le (x / ulp x)
  have hmul := mul_le_mul_of_nonneg_right h hq.le
  have hx' : x / ulp x * ulp x = x := div_mul_cancel₀ x hq.ne'
  rw [sub_mul, hx'] at hmul
  linarith

theorem Float64.sub_round_le {x : ℚ} (hx : 0 ≤ x) : x - Float64.round x ≤ ulp x / 2 := by
  rw [Float64.round_of_nonneg hx]
  have hq := ulp_pos x
  have h := sub_roundHalfEven_le (x / ulp x)
  have hmul := mul_le_mul_of_nonneg_right h hq.le
  have hx' : x / ulp x * ulp x = x := div_mul_cancel₀ x hq.ne'
  rw [sub_mul, hx'] at hmul
  linarith

theorem ulp_le_of_lt {x : ℚ} {k : ℤ} (hx : 0 ≤ x) (hk : x < (2 : ℚ) ^ k) (hk' : -1022 < k) :
    ulp x / 2 ≤ (2 : ℚ) ^ (k - 54) := by
  have hb := binade_lt_of_lt hx hk hk'
  unfold ulp
  have h1 : (2 : ℚ) ^ (binade x - 52) ≤ (2 : ℚ) ^ (k - 53) :=
    zpow_le_zpow_right₀ (by norm_num) (by omega)
  have h2 : (2 : ℚ) ^ (k - 53) = 2 * (2 : ℚ) ^ (k - 54) := by
    rw [show k - 53 = (k - 54) + 1 by ring, zpow_add_one₀ (by norm_num)]
    ring
  linarith

/-- Absolute error bounds below a power of two. -/
theorem Float64.round_le_add (x : ℚ) (k : ℤ) (hx : 0 ≤ x) (hk : x < (2 : ℚ) ^ k)
    (hk' : -1022 < k) : Float64.round x ≤ x + (2 : ℚ) ^ (k - 54) := by
  have := Float64.round_sub_le hx
  have := ulp_le_of_lt hx hk hk'
  linarith

theorem Float64.sub_le_round (x : ℚ) (k : ℤ) (hx : 0 ≤ x) (hk : x < (2 : ℚ) ^ k)
    (hk' : -1022 < k) : x - (2 : ℚ) ^ (k - 54) ≤ Float64.round x := by
  have := Float64.sub_round_le hx
  have := ulp_le_of_lt hx hk hk'
  linarith

theorem two_pow_mul_zpow (n : ℕ) (b : ℤ) :
    ((2 ^ n : ℤ) : ℚ) * (2 : ℚ) ^ (b - n) = (2 : ℚ) ^ b := by
  push_cast
  rw [← zpow_natCast, ← zpow_add₀ (by norm_num)]
  congr 1
  ring

theorem Float64.round_le_two_zpow {x : ℚ} (hx : 0 ≤ x) :
    Float64.round x ≤ (2 : ℚ) ^ (binade x + 1) := by
  rw [Float64.round_of_nonneg hx]
  have hq := ulp_pos x
  have hlt := lt_two_zpow_binade_succ x
  have hdiv : x / ulp x ≤ ((2 ^ 53 : ℤ) : ℚ) := by
    rw [div_le_iff₀ hq]
    unfold ulp
    have := two_pow_mul_zpow 53 (binade x + 1)
    rw [show binade x + 1 - ((53 : ℕ) : ℤ) = binade x - 52 by push_cast; ring] at this
    rw [this]
    exact hlt.le
  have hr := roundHalfEven_mono hdiv
  rw [roundHalfEven_intCast] at hr
  have hr' : (roundHalfEven (x / ulp x) : ℚ) ≤ ((2 ^ 53 : ℤ) : ℚ) := by exact_mod_cast hr
  have hmul := mul_le_mul_of_nonneg_right hr' hq.le
  refine le_trans hmul ?_
  unfold ulp
  have := two_pow_mul_zpow 53 (binade x + 1)
  rw [show binade x + 1 - ((53 : ℕ) : ℤ) = binade x - 52 by push_cast; ring] at this
  rw [this]

theorem Float64.two_zpow_le_round {x : ℚ} (hx : 0 ≤ x) (h : (2 : ℚ) ^ binade x ≤ x) :
    (2 : ℚ) ^ binade x ≤ Float64.round x := by
  rw [Float64.round_of_nonneg hx]
  have hq := ulp_pos x
  have hdiv : ((2 ^ 52 : ℤ) : ℚ) ≤ x / ulp x := by
    rw [le_div_iff₀ hq]
    unfold ulp
    have := two_pow_mul_zpow 52 (binade x)
    rw [show binade x - ((52 : ℕ) : ℤ) = binade x - 52 by push_cast; ring] at this
    rw [this]
    exact h
  have hr := roundHalfEven_mono hdiv
  rw [roundHalfEven_intCast] at hr
  have hr' : ((2 ^ 52 : ℤ) : ℚ) ≤ (roundHalfEven (x / ulp x) : ℚ) := by exact_mod_cast hr
  have hmul := mul_le_mul_of_nonneg_right hr' hq.le
  refine le_trans ?_ hmul
  unfold ulp
  have := two_pow_mul_zpow 52 (binade x)
  rw [show binade x - ((52 : ℕ) : ℤ) = binade x - 52 by push_cast; ring] at this
  rw [this]

/-- Rounding to binary64 is monotone. -/
theorem Float64.round_mono {x y : ℚ} (hx : 0 ≤ x) (h : x ≤ y) :
    Float64.round x ≤ Float64.round y := by
  have hy : 0 ≤ y := le_trans hx h
  rcases (binade_mono hx h).lt_or_eq with hlt | heq
  · have h1 := Float64.round_le_two_zpow hx
    have hypos : 0 < y := by
      rcases hy.lt_or_eq with hp | hz
      · exact hp
      · exfalso
        have hx0 : x = 0 := le_antisymm (by rw [← hz] at h; exact h) hx
        rw [← hz, hx0] at hlt
        exact lt_irrefl _ hlt
    have hby : -1022 < binade y := lt_of_le_of_lt (binade_ge x) hlt
    have h2 := Float64.two_zpow_le_round hy (two_zpow_binade_le hypos hby)
    have h3 : (2 : ℚ) ^ (binade x + 1) ≤ (2 : ℚ) ^ binade y :=
      zpow_le_zpow_right₀ (by norm_num) (by omega)
    linarith
  · rw [Float64.round_of_nonneg hx, Float64.round_of_nonneg hy]
    have hu : ulp x = ulp y := by unfold ulp; rw [heq]
    rw [hu]
    have hq := ulp_pos y
    have hdiv : x / ulp y ≤ y / ulp y := div_le_div_of_nonneg_right h hq.le
    have hr := roundHalfEven_mono hdiv
    have hr' : (roundHalfEven (x / ulp y) : ℚ) ≤ (roundHalfEven (y / ulp y) : ℚ) := by
      exact_mod_cast hr
    exact mul_le_mul_of_nonneg_right hr' hq.le

/-- Relative error bound in the normal range. -/
theorem Float64.mul_le_round {x : ℚ} (h : (2 : ℚ) ^ (-1022 : ℤ) ≤ x) :
    x * (1 - (2 : ℚ) ^ (-53 : ℤ)) ≤ Float64.round x := by
  have hpos : 0 < x := lt_of_lt_of_le (by positivity) h
  have hb : (2 : ℚ) ^ binade x ≤ x := by
    rcases (binade_ge x).lt_or_eq with hlt | heq
    · exact two_zpow_binade_le hpos hlt
    · rw [← heq]; exact h
  have herr := Float64.sub_round_le hpos.le
  have hu : ulp x / 2 = (2 : ℚ) ^ binade x * (2 : ℚ) ^ (-53 : ℤ) := by
    unfold ulp
    rw [← zpow_add₀ (by norm_num)]
    rw [show binade x + -53 = (binade x - 52) + (-1) by ring, zpow_add₀ (by norm_num)]
    norm_num
    ring
  have hp : (0 : ℚ) < (2 : ℚ) ^ (-53 : ℤ) := by positivity
  have hmul := mul_le_mul_of_nonneg_right hb hp.le
  rw [← hu] at hmul
  rw [mul_sub, mul_one]
  clear hu hp h hb
  generalize (2 : ℚ) ^ (-53 : ℤ) = c at hmul ⊢
  linarith

/-- Evaluation of the rounding at a point whose binade is known. -/
theorem Float64.round_eval (x : ℚ) (e n : ℤ) (h1 : (2 : ℚ) ^ e ≤ x)
    (h2 : x < (2 : ℚ) ^ (e + 1)) (he : -1022 ≤ e)
    (hn : roundHalfEven (x / (2 : ℚ) ^ (e - 52)) = n) :
    Float64.round x = n * (2 : ℚ) ^ (e - 52) := by
  have hpos : 0 < x := lt_of_lt_of_le (by positivity) h1
  rw [Float64.round_of_nonneg hpos.le]
  unfold ulp
  rw [binade_eq h1 h2 he, hn]

/-- Evaluation of the rounding at a point whose binade and scaled floor are known. -/
theorem Float64.round_eval_floor (x : ℚ) (e f n : ℤ) (h1 : (2 : ℚ) ^ e ≤ x)
    (h2 : x < (2 : ℚ) ^ (e + 1)) (he : -1022 ≤ e)
    (hf1 : (f : ℚ) ≤ x / (2 : ℚ) ^ (e - 52)) (hf2 : x / (2 : ℚ) ^ (e - 52) < f + 1)
    (hn : (if 2 * (x / (2 : ℚ) ^ (e - 52) - f) < 1 then f
      else if 1 < 2 * (x / (2 : ℚ) ^ (e - 52) - f) then f + 1
      else if f % 2 = 0 then f else f + 1) = n) :
    Float64.round x = n * (2 : ℚ) ^ (e - 52) := by
  apply Float64.round_eval x e n h1 h2 he
  rw [roundHalfEven_of_floor _ f hf1 hf2, hn]

theorem Float64.tenth_eq : Float64.tenth = 3602879701896397 / 2 ^ 55 := by
  unfold Float64.tenth
  rw [Float64.round_eval_floor (1 / 10) (-4) 7205759403792793 7205759403792794
    (by norm_num) (by norm_num) (by norm_num) (by norm_num) (by norm_num) (by norm_num)]
  norm_num

theorem Float64.fifth_eq : Float64.fifth = 3602879701896397 / 2 ^ 54 := by
  unfold Float64.fifth
  rw [Float64.round_eval_floor (2 / 10) (-3) 7205759403792793 7205759403792794
    (by norm_num) (by norm_num) (by norm_num) (by norm_num) (by norm_num) (by norm_num)]
  norm_num

theorem Float64.round_one : Float64.round 1 = 1 := by
  rw [Float64.round_eval_floor 1 0 (2 ^ 52) (2 ^ 52)
    (by norm_num) (by norm_num) (by norm_num) (by norm_num) (by norm_num) (by norm_num)]
  norm_num

theorem Float64.round_tenth :
    Float64.round (3602879701896397 / 2 ^ 55) = 3602879701896397 / 2 ^ 55 := by
  rw [Float64.round_eval_floor _ (-4) 7205759403792794 7205759403792794
    (by norm_num) (by norm_num) (by norm_num) (by norm_num) (by norm_num) (by norm_num)]
  norm_num

theorem Float64.round_fifth :
    Float64.round (3602879701896397 / 2 ^ 54) = 3602879701896397 / 2 ^ 54 := by
  rw [Float64.round_eval_floor _ (-3) 7205759403792794 7205759403792794
    (by norm_num) (by norm_num) (by norm_num) (by norm_num) (by norm_num) (by norm_num)]
  norm_num

/-- The tie below one rounds up to one. -/
theorem Float64.round_below_one : Float64.round (1 - 1 / 2 ^ 54) = 1 := by
  rw [Float64.round_eval_floor _ (-1) (2 ^ 53 - 1) (2 ^ 53)
    (by norm_num) (by norm_num) (by norm_num) (by norm_num) (by norm_num) (by norm_num)]
  norm_num

theorem Float64.round_pred_one : Float64.round (1 - 1 / 2 ^ 53) = 1 - 1 / 2 ^ 53 := by
  rw [Float64.round_eval_floor _ (-1) (2 ^ 53 - 1) (2 ^ 53 - 1)
    (by norm_num) (by norm_num) (by norm_num) (by norm_num) (by norm_num) (by norm_num)]
  norm_num

theorem Float64.round_pred_one_mul_tenth :
    Float64.round ((1 - 1 / 2 ^ 53) * (3602879701896397 / 2 ^ 55)) =
      3602879701896397 / 2 ^ 55 - 1 / 2 ^ 56 := by
  rw [Float64.round_eval_floor _ (-4) 7205759403792793 7205759403792793
    (by norm_num) (by norm_num) (by norm_num) (by norm_num) (by norm_num) (by norm_num)]
  norm_num

theorem Float64.round_small_fifth :
    Float64.round (1 / 2 ^ 54 * (3602879701896397 / 2 ^ 54)) =
      1 / 2 ^ 54 * (3602879701896397 / 2 ^ 54) := by
  rw [Float64.round_eval_floor _ (-57) 7205759403792794 7205759403792794
    (by norm_num) (by norm_num) (by norm_num) (by norm_num) (by norm_num) (by norm_num)]
  norm_num

/-- The tie below the double 0.1 rounds up to it (its significand is even). -/
theorem Float64.round_below_tenth :
    Float64.round (3602879701896397 / 2 ^ 55 - 1 / 2 ^ 57) = 3602879701896397 / 2 ^ 55 := by
  rw [Float64.round_eval_floor _ (-4) 7205759403792793 7205759403792794
    (by norm_num) (by norm_num) (by norm_num) (by norm_num) (by norm_num) (by norm_num)]
  norm_num

/-- The tie above the double 0.2 rounds down to it (its significand is even). -/
theorem Float64.round_above_fifth :
    Float64.round (3602879701896397 / 2 ^ 54 + 1 / 2 ^ 56) = 3602879701896397 / 2 ^ 54 := by
  rw [Float64.round_eval_floor _ (-3) 7205759403792794 7205759403792794
    (by norm_num) (by norm_num) (by norm_num) (by norm_num) (by norm_num) (by norm_num)]
  norm_num

theorem Float64.round_two_pow_neg_53 : Float64.round (1 / 2 ^ 53) = 1 / 2 ^ 53 := by
  rw [Float64.round_eval_floor _ (-53) (2 ^ 52) (2 ^ 52)
    (by norm_num) (by norm_num) (by norm_num) (by norm_num) (by norm_num) (by norm_num)]
  norm_num

theorem Float64.round_small_tenth :
    Float64.round (1 / 2 ^ 53 * (3602879701896397 / 2 ^ 55)) =
      1 / 2 ^ 53 * (3602879701896397 / 2 ^ 55) := by
  rw [Float64.round_eval_floor _ (-57) 7205759403792794 7205759403792794
    (by norm_num) (by norm_num) (by norm_num) (by norm_num) (by norm_num) (by norm_num)]
  norm_num

/-- The binary64 interpolation between the doubles 0.1 and 0.2 at any `r` in `[0, 1)`:
it stays between the two doubles and is within `2 ^ -53` of the exact value
`1/10 + (2/10 - 1/10) * r`. -/
theorem lerp_tenth_fifth (r : ℚ) (h0 : 0 ≤ r) (h1 : r < 1) :
    Float64.tenth ≤ lerp Float64.tenth Float64.fifth r ∧
    lerp Float64.tenth Float64.fifth r ≤ Float64.fifth ∧
    |lerp Float64.tenth Float64.fifth r - (1 / 10 + (2 / 10 - 1 / 10) * r)| ≤ 1 / 2 ^ 53 := by
  rw [Float64.tenth_eq, Float64.fifth_eq]
  unfold lerp Float64.add Float64.mul Float64.sub
  -- the difference `1 - r`
  have hx0 : (0 : ℚ) ≤ 1 - r := by linarith
  have ha0 : 0 ≤ Float64.round (1 - r) := Float64.round_nonneg hx0
  have ha1 : Float64.round (1 - r) ≤ 1 := by
    have := Float64.round_mono hx0 (show 1 - r ≤ 1 by linarith)
    rwa [Float64.round_one] at this
  have haL : (1 - r) - 1 / 2 ^ 53 ≤ Float64.round (1 - r) := by
    have := Float64.sub_le_round (1 - r) 1 hx0 (by norm_num; linarith) (by norm_num)
    norm_num at this ⊢
    linarith
  have haU : Float64.round (1 - r) ≤ (1 - r) + 1 / 2 ^ 53 := by
    have := Float64.round_le_add (1 - r) 1 hx0 (by norm_num; linarith) (by norm_num)
    norm_num at this ⊢
    linarith
  have haC1 : r ≤ 1 / 2 ^ 54 → 1 ≤ Float64.round (1 - r) := by
    intro hr
    have := Float64.round_mono (show (0 : ℚ) ≤ 1 - 1 / 2 ^ 54 by norm_num)
      (show (1 : ℚ) - 1 / 2 ^ 54 ≤ 1 - r by linarith)
    rwa [Float64.round_below_one] at this
  have haC2 : r ≤ 1 / 2 ^ 53 → 1 - 1 / 2 ^ 53 ≤ Float64.round (1 - r) := by
    intro hr
    have := Float64.round_mono (show (0 : ℚ) ≤ 1 - 1 / 2 ^ 53 by norm_num)
      (show (1 : ℚ) - 1 / 2 ^ 53 ≤ 1 - r by linarith)
    rwa [Float64.round_pred_one] at this
  have haC3 : 0 < r → (1 - r) - 1 / 2 ^ 54 ≤ Float64.round (1 - r) := by
    intro hr
    have := Float64.sub_le_round (1 - r) 0 hx0 (by norm_num; linarith) (by norm_num)
    norm_num at this ⊢
    linarith
  have haC4 : 1 / 2 < r → Float64.round (1 - r) ≤ (1 - r) + 1 / 2 ^ 55 := by
    intro hr
    have := Float64.round_le_add (1 - r) (-1) hx0 (by norm_num; linarith) (by norm_num)
    norm_num at this ⊢
    linarith
  have haC5 : 1 - 1 / 2 ^ 53 ≤ r → Float64.round (1 - r) ≤ 1 / 2 ^ 53 := by
    intro hr
    have := Float64.round_mono hx0 (show 1 - r ≤ 1 / 2 ^ 53 by linarith)
    rwa [Float64.round_two_pow_neg_53] at this
  generalize Float64.round (1 - r) = a at ha0 ha1 haL haU haC1 haC2 haC3 haC4 haC5 ⊢
  -- the product `a * 0.1`
  have hc1 : (0 : ℚ) ≤ 3602879701896397 / 2 ^ 55 := by norm_num
  have hy0 : (0 : ℚ) ≤ a * (3602879701896397 / 2 ^ 55) := mul_nonneg ha0 hc1
  have hy1 : a * (3602879701896397 / 2 ^ 55) ≤ 3602879701896397 / 2 ^ 55 := by
    have := mul_le_mul_of_nonneg_right ha1 hc1
    linarith
  have hp0 : 0 ≤ Float64.round (a * (3602879701896397 / 2 ^ 55)) := Float64.round_nonneg hy0
  have hp1 : Float64.round (a * (3602879701896397 / 2 ^ 55)) ≤ 3602879701896397 / 2 ^ 55 := by
    have := Float64.round_mono hy0 hy1
    rwa [Float64.round_tenth] at this
  have hpL : a * (3602879701896397 / 2 ^ 55) - 1 / 2 ^ 57 ≤
      Float64.round (a * (3602879701896397 / 2 ^ 55)) := by
    have := Float64.sub_le_round _ (-3) hy0 (by norm_num; linarith) (by norm_num)
    norm_num at this ⊢
    linarith
  have hpU : Float64.round (a * (3602879701896397 / 2 ^ 55)) ≤
      a * (3602879701896397 / 2 ^ 55) + 1 / 2 ^ 57 := by
    have := Float64.round_le_add _ (-3) hy0 (by norm_num; linarith) (by norm_num)
    norm_num at this ⊢
    linarith
  have hpC1 : 1 ≤ a →
      3602879701896397 / 2 ^ 55 ≤ Float64.round (a * (3602879701896397 / 2 ^ 55)) := by
    intro h
    have := Float64.round_mono hc1
      (show (3602879701896397 / 2 ^ 55 : ℚ) ≤ a * (3602879701896397 / 2 ^ 55) by
        have := mul_le_mul_of_nonneg_right h hc1
        linarith)
    rwa [Float64.round_tenth] at this
  have hpC2 : 1 - 1 / 2 ^ 53 ≤ a →
      3602879701896397 / 2 ^ 55 - 1 / 2 ^ 56 ≤
        Float64.round (a * (3602879701896397 / 2 ^ 55)) := by
    intro h
    have := Float64.round_mono
      (show (0 : ℚ) ≤ (1 - 1 / 2 ^ 53) * (3602879701896397 / 2 ^ 55) by norm_num)
      (mul_le_mul_of_nonneg_right h hc1)
    rwa [Float64.round_pred_one_mul_tenth] at this
  have hpC5 : a ≤ 1 / 2 ^ 53 →
      Float64.round (a * (3602879701896397 / 2 ^ 55)) ≤
        1 / 2 ^ 53 * (3602879701896397 / 2 ^ 55) := by
    intro h
    have := Float64.round_mono hy0 (mul_le_mul_of_nonneg_right h hc1)
    rwa [Float64.round_small_tenth] at this
  generalize Float64.round (a * (3602879701896397 / 2 ^ 55)) = p
    at hp0 hp1 hpL hpU hpC1 hpC2 hpC5 ⊢
  -- the product `r * 0.2`
  have hc2 : (0 : ℚ) ≤ 3602879701896397 / 2 ^ 54 := by norm_num
  have hz0 : (0 : ℚ) ≤ r * (3602879701896397 / 2 ^ 54) := mul_nonneg h0 hc2
  have hz1 : r * (3602879701896397 / 2 ^ 54) ≤ 3602879701896397 / 2 ^ 54 := by
    have := mul_le_mul_of_nonneg_right h1.le hc2
    linarith
  have hq0 : 0 ≤ Float64.round (r * (3602879701896397 / 2 ^ 54)) := Float64.round_nonneg hz0
  have hq1 : Float64.round (r * (3602879701896397 / 2 ^ 54)) ≤ 3602879701896397 / 2 ^ 54 := by
    have := Float64.round_mono hz0 hz1
    rwa [Float64.round_fifth] at this
  have hqL : r * (3602879701896397 / 2 ^ 54) - 1 / 2 ^ 56 ≤
      Float64.round (r * (3602879701896397 / 2 ^ 54)) := by
    have := Float64.sub_le_round _ (-2) hz0 (by norm_num; linarith) (by norm_num)
    norm_num at this ⊢
    linarith
  have hqU : Float64.round (r * (3602879701896397 / 2 ^ 54)) ≤
      r * (3602879701896397 / 2 ^ 54) + 1 / 2 ^ 56 := by
    have := Float64.round_le_add _ (-2) hz0 (by norm_num; linarith) (by norm_num)
    norm_num at this ⊢
    linarith
  have hqC2 : 1 / 2 ^ 54 ≤ r →
      1 / 2 ^ 54 * (3602879701896397 / 2 ^ 54) ≤
        Float64.round (r * (3602879701896397 / 2 ^ 54)) := by
    intro h
    have := Float64.round_mono
      (show (0 : ℚ) ≤ 1 / 2 ^ 54 * (3602879701896397 / 2 ^ 54) by norm_num)
      (mul_le_mul_of_nonneg_right h hc2)
    rwa [Float64.round_small_fifth] at this
  have hqC3 : 1 / 2 ^ 53 ≤ r →
      r * (3602879701896397 / 2 ^ 54) * (1 - 1 / 2 ^ 53) ≤
        Float64.round (r * (3602879701896397 / 2 ^ 54)) := by
    intro h
    have hn : (2 : ℚ) ^ (-1022 : ℤ) ≤ r * (3602879701896397 / 2 ^ 54) := by
      have h2 := mul_le_mul_of_nonneg_right h hc2
      refine le_trans ?_ h2
      norm_num
    have := Float64.mul_le_round hn
    norm_num at this ⊢
    linarith
  have hqC4 : r ≤ 1 / 2 →
      Float64.round (r * (3602879701896397 / 2 ^ 54)) ≤ 3602879701896397 / 2 ^ 55 := by
    intro h
    have := Float64.round_mono hz0
      (show r * (3602879701896397 / 2 ^ 54) ≤ 3602879701896397 / 2 ^ 55 by
        have := mul_le_mul_of_nonneg_right h hc2
        norm_num at this ⊢
        linarith)
    rwa [Float64.round_tenth] at this
  generalize Float64.round (r * (3602879701896397 / 2 ^ 54)) = q
    at hq0 hq1 hqL hqU hqC2 hqC3 hqC4 ⊢
  -- the sum before the last rounding
  have hL : 3602879701896397 / 2 ^ 55 - 1 / 2 ^ 57 ≤ p + q := by
    rcases le_or_lt r (1 / 2 ^ 54) with hr | hr
    · have := hpC1 (haC1 hr)
      linarith
    · rcases le_or_lt r (1 / 2 ^ 53) with hr' | hr'
      · have e1 := hpC2 (haC2 hr')
        have e2 := hqC2 hr.le
        norm_num at e1 e2 ⊢
        linarith
      · have e1 := haC3 (by linarith)
        have e2 := hqC3 hr'.le
        norm_num at e1 e2 hpL hr' ⊢
        linarith
  have hU : p + q ≤ 3602879701896397 / 2 ^ 54 + 1 / 2 ^ 56 := by
    rcases le_or_lt r (1 / 2) with hr | hr
    · have := hqC4 hr
      norm_num at this hp1 ⊢
      linarith
    · rcases le_or_lt (1 - 1 / 2 ^ 53) r with hr' | hr'
      · have e1 := hpC5 (haC5 hr')
        norm_num at e1 hq1 ⊢
        linarith
      · have e1 := haC4 hr
        norm_num at e1 hpU hqU hr' ⊢
        linarith
  have hs0 : 0 ≤ p + q := add_nonneg hp0 hq0
  have hsL : (p + q) - 1 / 2 ^ 56 ≤ Float64.round (p + q) := by
    have := Float64.sub_le_round _ (-2) hs0 (by norm_num at hU ⊢; linarith) (by norm_num)
    norm_num at this ⊢
    linarith
  have hsU : Float64.round (p + q) ≤ (p + q) + 1 / 2 ^ 56 := by
    have := Float64.round_le_add _ (-2) hs0 (by norm_num at hU ⊢; linarith) (by norm_num)
    norm_num at this ⊢
    linarith
  refine ⟨?_, ?_, ?_⟩
  · have := Float64.round_mono
      (show (0 : ℚ) ≤ 3602879701896397 / 2 ^ 55 - 1 / 2 ^ 57 by norm_num) hL
    rwa [Float64.round_below_tenth] at this
  · have := Float64.round_mono hs0 hU
    rwa [Float64.round_above_fifth] at this
  · rw [abs_le]
    norm_num at haL haU hpL hpU hqL hqU hsL hsU ⊢
    constructor <;> linarith

/-- The binary64 interpolation at `r = 1/8`. -/
theorem lerp_tenth_fifth_eighth :
    lerp Float64.tenth Float64.fifth (1 / 8) = 4053239664633447 / 2 ^ 55 := by
  rw [Float64.tenth_eq, Float64.fifth_eq]
  unfold lerp Float64.add Float64.mul Float64.sub
  have e1 : Float64.round (1 - 1 / 8) = 7 / 8 := by
    rw [Float64.round_eval_floor _ (-1) 7881299347898368 7881299347898368
      (by norm_num) (by norm_num) (by norm_num) (by norm_num) (by norm_num) (by norm_num)]
    norm_num
  have e2 : Float64.round (7 / 8 * (3602879701896397 / 2 ^ 55)) =
      6305039478318695 / 2 ^ 56 := by
    rw [Float64.round_eval_floor _ (-4) 6305039478318694 6305039478318695
      (by norm_num) (by norm_num) (by norm_num) (by norm_num) (by norm_num) (by norm_num)]
    norm_num
  have e3 : Float64.round (1 / 8 * (3602879701896397 / 2 ^ 54)) =
      3602879701896397 / 2 ^ 57 := by
    rw [Float64.round_eval_floor _ (-6) 7205759403792794 7205759403792794
      (by norm_num) (by norm_num) (by norm_num) (by norm_num) (by norm_num) (by norm_num)]
    norm_num
  have e4 : Float64.round (6305039478318695 / 2 ^ 56 + 3602879701896397 / 2 ^ 57) =
      4053239664633447 / 2 ^ 55 := by
    rw [Float64.round_eval_floor _ (-4) 8106479329266893 8106479329266894
      (by norm_num) (by norm_num) (by norm_num) (by norm_num) (by norm_num) (by norm_num)]
    norm_num
  rw [e1, e2, e3, e4]

/-- The binary64 value of the expression `0.1 + (0.2 - 0.1) * r` at `r = 1/8`. -/
theorem offset_form_eighth :
    Float64.add Float64.tenth (Float64.mul (Float64.sub Float64.fifth Float64.tenth) (1 / 8)) =
      8106479329266893 / 2 ^ 56 := by
  rw [Float64.tenth_eq, Float64.fifth_eq]
  unfold Float64.add Float64.mul Float64.sub
  have e1 : Float64.round (3602879701896397 / 2 ^ 54 - 3602879701896397 / 2 ^ 55) =
      3602879701896397 / 2 ^ 55 := by
    rw [Float64.round_eval_floor _ (-4) 7205759403792794 7205759403792794
      (by norm_num) (by norm_num) (by norm_num) (by norm_num) (by norm_num) (by norm_num)]
    norm_num
  have e2 : Float64.round (3602879701896397 / 2 ^ 55 * (1 / 8)) =
      3602879701896397 / 2 ^ 58 := by
    rw [Float64.round_eval_floor _ (-7) 7205759403792794 7205759403792794
      (by norm_num) (by norm_num) (by norm_num) (by norm_num) (by norm_num) (by norm_num)]
    norm_num
  have e3 : Float64.round (3602879701896397 / 2 ^ 55 + 3602879701896397 / 2 ^ 58) =
      8106479329266893 / 2 ^ 56 := by
    rw [Float64.round_eval_floor _ (-4) 8106479329266893 8106479329266893
      (by norm_num) (by norm_num) (by norm_num) (by norm_num) (by norm_num) (by norm_num)]
    norm_num
  rw [e1, e2, e3]

/-! ## Facts about randomizeBrushes -/

theorem randomizeBrushes.loop_get (env : Env) : ∀ (fuel i : Nat) (w : World),
    w.brushes.length ≤ i + fuel → ∀ j : Nat,
    (randomizeBrushes.loop env fuel i w).brushes[j]? =
      if j < i then w.brushes[j]?
      else (w.brushes[j]?).map
        (randomizeBrushes.place w.bunnyBrush.matrixWorld (env.sample (w.samples + (j - i)))
          (env.random (w.randoms + (j - i)))) := by
  intro fuel
  induction fuel with
  | zero =>
    intro i w hlen j
    simp only [randomizeBrushes.loop]
    split
    · rfl
    · have hj : w.brushes.length ≤ j := by omega
      simp [List.getElem?_eq_none hj]
  | succ fuel ih =>
    intro i w hlen j
    simp only [randomizeBrushes.loop]
    split
    · rename_i h
      have hlen1 : (randomizeBrushes.body env w i h).brushes.length ≤ (i + 1) + fuel := by
        simp [randomizeBrushes.body]; omega
      rw [ih (i + 1) _ hlen1 j]
      by_cases hj : j < i
      · have hne : i ≠ j := by omega
        simp [hj, Nat.lt_succ_of_lt hj, randomizeBrushes.body, List.getElem?_set_ne hne]
      · by_cases hji : j = i
        · subst hji
          simp [randomizeBrushes.body, List.getElem?_eq_getElem h, List.getElem?_set_self h]
        · have h1 : ¬ j < i + 1 := by omega
          have hne : i ≠ j := by omega
          have e : j - i = (j - (i + 1)) + 1 := by omega
          simp only [h1, hj, if_false, randomizeBrushes.body, List.getElem?_set_ne hne]
          rw [e]
          simp [Nat.add_assoc, Nat.add_comm 1]
    · rename_i h
      split
      · rfl
      · have hj : w.brushes.length ≤ j := by omega
        simp [List.getElem?_eq_none hj]

theorem randomizeBrushes.loop_frame (env : Env) : ∀ (fuel i : Nat) (w : World),
    (randomizeBrushes.loop env fuel i w).bunnyBrush = w.bunnyBrush ∧
    (randomizeBrushes.loop env fuel i w).brushes.length = w.brushes.length ∧
    (randomizeBrushes.loop env fuel i w).nextId = w.nextId ∧
    (randomizeBrushes.loop env fuel i w).operation = w.operation ∧
    (randomizeBrushes.loop env fuel i w).resultGeometry = w.resultGeometry ∧
    (randomizeBrushes.loop env fuel i w).wireframeGeometry = w.wireframeGeometry ∧
    (randomizeBrushes.loop env fuel i w).heap = w.heap ∧
    (randomizeBrushes.loop env fuel i w).innerText = w.innerText ∧
    (randomizeBrushes.loop env fuel i w).clockReads = w.clockReads ∧
    (randomizeBrushes.loop env fuel i w).calls = w.calls := by
  intro fuel
  induction fuel with
  | zero => intro i w; simp [randomizeBrushes.loop]
  | succ fuel ih =>
    intro i w
    simp only [randomizeBrushes.loop]
    split
    · rename_i h
      have := ih (i + 1) (randomizeBrushes.body env w i h)
      simpa [randomizeBrushes.body] using this
    · simp

theorem randomizeBrushes.loop_queries (env : Env) : ∀ (fuel i : Nat) (w : World),
    w.brushes.length ≤ i + fuel →
    (randomizeBrushes.loop env fuel i w).samples = w.samples + (w.brushes.length - i) ∧
    (randomizeBrushes.loop env fuel i w).randoms = w.randoms + (w.brushes.length - i) := by
  intro fuel
  induction fuel with
  | zero =>
    intro i w hlen
    have : w.brushes.length - i = 0 := by omega
    simp [randomizeBrushes.loop, this]
  | succ fuel ih =>
    intro i w hlen
    simp only [randomizeBrushes.loop]
    split
    · rename_i h
      have hlen1 : (randomizeBrushes.body env w i h).brushes.length ≤ (i + 1) + fuel := by
        simp [randomizeBrushes.body]; omega
      have := ih (i + 1) _ hlen1
      rw [this.1, this.2]
      simp only [randomizeBrushes.body, List.length_set]
      constructor <;> omega
    · rename_i h
      have : w.brushes.length - i = 0 := by omega
      simp [this]

/-- After `randomizeBrushes` the brush at index `i` is the old brush at that index placed
with the `i`-th sample and the `i`-th random value drawn by the call. -/
theorem randomizeBrushes.get (env : Env) (w : World) (i : Nat) :
    (randomizeBrushes env w).brushes[i]? =
      (w.brushes[i]?).map
        (randomizeBrushes.place w.bunnyBrush.matrixWorld (env.sample (w.samples + i))
          (env.random (w.randoms + i))) := by
  have := randomizeBrushes.loop_get env w.brushes.length 0 w (by omega) i
  simpa [randomizeBrushes] using this

/-! ## Facts about evaluate and the reducer -/

theorem evaluate_error (E : Evaluator) (a b : Option Brush) (op : Operation)
    (t : Option Nat) (w : World) (f : Fault) (h : E.compute a b op = .error f) :
    evaluate E a b op t w = (.error f, { w with calls := w.calls ++ [⟨a, b, op, t⟩] }) := by
  simp [evaluate, h]

theorem evaluate_ok_none (E : Evaluator) (a b : Option Brush) (op : Operation)
    (w : World) (d : List Vector3) (h : E.compute a b op = .ok d) :
    evaluate E a b op none w =
      (.ok ⟨w.nextId, d⟩,
        { w with calls := w.calls ++ [⟨a, b, op, none⟩], nextId := w.nextId + 1 }) := by
  simp [evaluate, h]

theorem evaluate_ok_some (E : Evaluator) (a b : Option Brush) (op : Operation)
    (t : Nat) (w : World) (d : List Vector3) (h : E.compute a b op = .ok d) :
    evaluate E a b op (some t) w =
      (.ok ⟨t, d⟩,
        { w with calls := w.calls ++ [⟨a, b, op, some t⟩],
                 heap := fun i => if i = t then d else w.heap i }) := by
  simp [evaluate, h]

theorem unionStep_error (E : Evaluator) (f : Fault) (w : World) (b : Brush) :
    unionStep E (.error f, w) b = (.error f, w) := rfl

theorem foldl_unionStep_error (E : Evaluator) (f : Fault) (w : World) :
    ∀ rest : List Brush, rest.foldl (unionStep E) (.error f, w) = (.error f, w) := by
  intro rest
  induction rest with
  | nil => rfl
  | cons b rest ih => simpa [List.foldl, unionStep_error] using ih

/-- The loop of `updateCSG` started at index `pre.length` with accumulator `a`, on a pool
`pre ++ rest`, is the left fold of `unionStep` over `rest`. -/
theorem updateCSG.loop_eq_foldl (E : Evaluator) : ∀ (rest pre : List Brush) (l fuel i : Nat)
    (a : Brush) (w : World),
    w.brushes = pre ++ rest → i = pre.length → l = pre.length + rest.length →
    rest.length ≤ fuel →
    updateCSG.loop E l fuel i (some a) w =
      ((rest.foldl (unionStep E) (.ok a, w)).1.map some,
       (rest.foldl (unionStep E) (.ok a, w)).2) := by
  intro rest
  induction rest with
  | nil =>
    intro pre l fuel i a w _ hi hl _
    subst hi; subst hl
    cases fuel with
    | zero => rfl
    | succ fuel => simp [updateCSG.loop, Except.map]
  | cons b rest ih =>
    intro pre l fuel i a w hw hi hl hfuel
    cases fuel with
    | zero => simp at hfuel
    | succ fuel =>
      have hil : i < l := by subst hi; subst hl; simp
      have hb : w.brushes[i]? = some b := by
        subst hi; rw [hw]
        rw [List.getElem?_append_right (Nat.le_refl _)]
        simp
      simp only [updateCSG.loop, hil, if_true, hb, List.foldl, unionStep]
      cases hc : E.compute (some a) (some b) Operation.ADDITION with
      | error f =>
        rw [evaluate_error E _ _ _ _ _ f hc]
        simp [foldl_unionStep_error, Except.map]
      | ok d =>
        rw [evaluate_ok_none E _ _ _ _ d hc]
        simp only [newBrush]
        apply ih (pre ++ [b]) l fuel (i + 1)
        · simp [hw]
        · simp [hi]
        · simp [hl]; omega
        · simpa using hfuel

/-- On a pool `first :: rest` the first part of `updateCSG` computes the left fold of
section 4.3. -/
theorem updateCSG.fold_eq_unionFold (E : Evaluator) (w : World) (first : Brush)
    (rest : List Brush) (hw : w.brushes = first :: rest) :
    updateCSG.fold E w =
      ((unionFold E first rest w).1.map some, (unionFold E first rest w).2) := by
  unfold updateCSG.fold unionFold
  have h0 : w.brushes[0]? = some first := by rw [hw]; simp
  rw [h0]
  apply updateCSG.loop_eq_foldl E rest [first] _ _ 1 first w
  · simpa using hw
  · rfl
  · rw [hw]; simp; omega
  · rw [hw]; simp

theorem foldl_unionStep_log (E : Evaluator) (P : Brush → Prop)
    (hnew : ∀ id g, P (Brush.new id g)) : ∀ (rest : List Brush) (a : Brush) (w : World),
    P a → (∀ b ∈ rest, P b) →
    ∃ new, FoldLog E P P rest.length w (rest.foldl (unionStep E) (.ok a, w)) new := by
  intro rest
  induction rest with
  | nil =>
    intro a w ha _
    refine ⟨[], ?_⟩
    constructor <;> simp [ha]
  | cons b rest ih =>
    intro a w ha hrest
    have hb : P b := hrest b (List.mem_cons_self _ _)
    have hrest1 : ∀ x ∈ rest, P x := fun x hx => hrest x (List.mem_cons_of_mem _ hx)
    simp only [List.foldl, unionStep]
    cases hc : E.compute (some a) (some b) Operation.ADDITION with
    | error f =>
      rw [evaluate_error E _ _ _ _ _ f hc]
      simp only [foldl_unionStep_error]
      refine ⟨[⟨some a, some b, Operation.ADDITION, none⟩], ?_⟩
      constructor
      · rfl
      · rfl
      · rfl
      · simp
      · simp
      · simp
      · intro c hcm
        simp only [List.mem_singleton] at hcm
        subst hcm
        exact ⟨a, b, rfl, rfl, ha, hb⟩
      · intro k c f1 hk hf1
        cases k with
        | zero =>
          simp only [List.getElem?_cons_zero, Option.some.injEq] at hk
          subst hk
          simp only at hf1
          rw [hc] at hf1
          simp only [Except.error.injEq] at hf1
          subst hf1
          simp
        | succ k => simp at hk
      · intro x hx
        simp at hx
    | ok d =>
      rw [evaluate_ok_none E _ _ _ _ d hc]
      simp only [newBrush]
      obtain ⟨new, hlog⟩ := ih (Brush.new (w.nextId + 1) ⟨w.nextId, d⟩)
        { w with calls := w.calls ++ [⟨some a, some b, Operation.ADDITION, none⟩],
                 nextId := w.nextId + 1 + 1 } (hnew _ _) hrest1
      refine ⟨⟨some a, some b, Operation.ADDITION, none⟩ :: new, ?_⟩
      constructor
      · rw [hlog.calls]; simp
      · rw [hlog.fixed]; rfl
      · rw [hlog.heap]
      · have := hlog.length_le
        simp only [List.length_cons]
        omega
      · have := hlog.nextId_le
        simp only at this
        omega
      · intro c hcm
        rcases List.mem_cons.mp hcm with h | h
        · subst h; exact ⟨rfl, rfl⟩
        · exact hlog.addition c h
      · intro c hcm
        rcases List.mem_cons.mp hcm with h | h
        · subst h; exact ⟨a, b, rfl, rfl, ha, hb⟩
        · exact hlog.operands c h
      · intro k c f1 hk hf1
        cases k with
        | zero =>
          simp only [List.getElem?_cons_zero, Option.some.injEq] at hk
          subst hk
          simp only at hf1
          rw [hc] at hf1
          cases hf1
        | succ k =>
          simp only [List.getElem?_cons_succ] at hk
          obtain ⟨h1, h2⟩ := hlog.failing k c f1 hk hf1
          exact ⟨by simp only [List.length_cons]; omega, h2⟩
      · intro x hx
        obtain ⟨h1, h2, h3⟩ := hlog.done x hx
        refine ⟨by simp only [List.length_cons]; omega, ?_, h3⟩
        rw [h2]
        simp only [List.length_cons]
        omega

theorem except_map_some_ok {α : Type} (r : Except Fault α) (x : Option α)
    (h : Except.map some r = .ok x) : ∃ y, r = .ok y ∧ x = some y := by
  cases r with
  | error f => simp [Except.map] at h
  | ok y =>
    simp only [Except.map, Except.ok.injEq] at h
    exact ⟨y, rfl, h.symm⟩

/-- The log of the first part of `updateCSG`, on any pool: at most `length - 1` calls,
all of them `ADDITION` without output buffer, a failing call is the last one. -/
theorem updateCSG.fold_log (E : Evaluator) (P : Brush → Prop)
    (hnew : ∀ id g, P (Brush.new id g)) (w : World) (hP : ∀ b ∈ w.brushes, P b) :
    ∃ new, FoldLog E P (fun o => o = none ∧ w.brushes = [] ∨ ∃ b, o = some b ∧ P b)
      (w.brushes.length - 1) w (updateCSG.fold E w) new := by
  cases hw : w.brushes with
  | nil =>
    refine ⟨[], ?_⟩
    have hf : updateCSG.fold E w = (.ok none, w) := by
      simp [updateCSG.fold, hw, updateCSG.loop]
    rw [hf]
    constructor <;> simp
  | cons first rest =>
    rw [updateCSG.fold_eq_unionFold E w first rest hw]
    have hfirst : P first := hP first (by rw [hw]; exact List.mem_cons_self _ _)
    have hrest : ∀ b ∈ rest, P b := fun b hb => hP b (by rw [hw]; exact List.mem_cons_of_mem _ hb)
    obtain ⟨new, hlog⟩ := foldl_unionStep_log E P hnew rest first w hfirst hrest
    refine ⟨new, ?_⟩
    unfold unionFold
    constructor
    · exact hlog.calls
    · exact hlog.fixed
    · exact hlog.heap
    · simpa using hlog.length_le
    · exact hlog.nextId_le
    · exact hlog.addition
    · exact hlog.operands
    · intro k c f hk hf
      obtain ⟨h1, h2⟩ := hlog.failing k c f hk hf
      refine ⟨h1, ?_⟩
      simp only [h2, Except.map]
    · intro x hx
      obtain ⟨y, hy, hxy⟩ := except_map_some_ok _ x hx
      obtain ⟨h1, h2, h3⟩ := hlog.done y hy
      refine ⟨by simpa using h1, by simpa using h2, Or.inr ⟨y, hxy, h3⟩⟩

/-- The function `updateCSG` in terms of its first part, with the operands of the
composition step read in the world before the call. -/
theorem updateCSG_eq (E : Evaluator) (env : Env) (w : World) :
    updateCSG E env w =
      match updateCSG.fold E { w with clockReads := w.clockReads + 1 } with
      | (.error f, w1) => (some f, w1)
      | (.ok finalBrush, w1) =>
        match E.compute (some w.bunnyBrush) finalBrush w.operation with
        | .error f =>
          (some f, { w1 with calls := w1.calls ++ [compositionCall w finalBrush] })
        | .ok d =>
          (none,
            { w1 with
              calls := w1.calls ++ [compositionCall w finalBrush]
              heap := fun i => if i = w.resultGeometry then d else w.heap i
              clockReads := w.clockReads + 1 + 1
              innerText := TimingText.millis (env.now (w.clockReads + 1) - env.now w.clockReads) })
      := by
  obtain ⟨new, hlog⟩ := updateCSG.fold_log E (fun _ => True) (fun _ _ => trivial)
    { w with clockReads := w.clockReads + 1 } (fun _ _ => trivial)
  have hfix := hlog.fixed
  have hheap := hlog.heap
  unfold updateCSG
  simp only
  generalize updateCSG.fold E { w with clockReads := w.clockReads + 1 } = out at hfix hheap
  obtain ⟨r, w1⟩ := out
  simp only [World.fixed, Prod.mk.injEq] at hfix hheap
  obtain ⟨h1, h2, h3, h4, h5, h6, h7, h8, h9⟩ := hfix
  cases r with
  | error f => rfl
  | ok finalBrush =>
    simp only [h1, h3, h4, compositionCall]
    cases hc : E.compute (some w.bunnyBrush) finalBrush w.operation with
    | error f =>
      rw [evaluate_error E _ _ _ _ _ f hc]
      simp only [h1, h3, h4]
    | ok d =>
      rw [evaluate_ok_some E _ _ _ _ _ d hc]
      simp only [h1, h3, h4, h9, hheap]

/-- The complete account of one run of `updateCSG`: the outcome `(r, w1)` of its first
part with the log `foldCalls` of that part, and the result of the run by cases. -/
theorem updateCSG_account (E : Evaluator) (env : Env) (w : World) (P : Brush → Prop)
    (hnew : ∀ id g, P (Brush.new id g)) (hP : ∀ b ∈ w.brushes, P b) :
    ∃ (foldCalls : List Call) (r : Except Fault (Option Brush)) (w1 : World),
      updateCSG.fold E { w with clockReads := w.clockReads + 1 } = (r, w1) ∧
      FoldLog E P (fun o => o = none ∧ w.brushes = [] ∨ ∃ b, o = some b ∧ P b)
        (w.brushes.length - 1) { w with clockReads := w.clockReads + 1 } (r, w1) foldCalls ∧
      updateCSG E env w =
        match r with
        | .error f => (some f, w1)
        | .ok finalBrush =>
          match E.compute (some w.bunnyBrush) finalBrush w.operation with
          | .error f =>
            (some f, { w1 with calls := w1.calls ++ [compositionCall w finalBrush] })
          | .ok d =>
            (none,
              { w1 with
                calls := w1.calls ++ [compositionCall w finalBrush]
                heap := fun i => if i = w.resultGeometry then d else w.heap i
                clockReads := w.clockReads + 1 + 1
                innerText :=
                  TimingText.millis (env.now (w.clockReads + 1) - env.now w.clockReads) }) := by
  obtain ⟨new, hlog⟩ := updateCSG.fold_log E P hnew
    { w with clockReads := w.clockReads + 1 } hP
  have heq := updateCSG_eq E env w
  generalize updateCSG.fold E { w with clockReads := w.clockReads + 1 } = out at hlog heq
  obtain ⟨r, w1⟩ := out
  refine ⟨new, r, w1, rfl, hlog, ?_⟩
  cases r <;> exact heq

/-! ## The claims -/

/-- C5 as stated fails: in the third brush of the example pool the random value is the
double `1/8`; the scale component is the double `0.11250000000000002`, which is neither the
exact value of `0.1 + (0.2 - 0.1) * r` nor the binary64 value of that expression
(`0.1125`). -/
theorem randomizeBrushes_scale_offset_form_counterexample :
    0 ≤ exampleEnv.random (exampleWorld.randoms + 2) ∧
    exampleEnv.random (exampleWorld.randoms + 2) < 1 ∧
    ∃ b, (randomizeBrushes exampleEnv exampleWorld).brushes[2]? = some b ∧
      b.scale.x = lerp Float64.tenth Float64.fifth (exampleEnv.random (exampleWorld.randoms + 2)) ∧
      b.scale.x = 4053239664633447 / 2 ^ 55 ∧
      b.scale.x ≠ 1 / 10 + (2 / 10 - 1 / 10) * exampleEnv.random (exampleWorld.randoms + 2) ∧
      b.scale.x ≠
        Float64.add Float64.tenth
          (Float64.mul (Float64.sub Float64.fifth Float64.tenth)
            (exampleEnv.random (exampleWorld.randoms + 2))) := by
  have hr : exampleEnv.random (exampleWorld.randoms + 2) = 1 / 8 := by
    norm_num [exampleEnv, exampleWorld]
  have hget := randomizeBrushes.get exampleEnv exampleWorld 2
  rw [List.getElem?_eq_getElem (show 2 < exampleWorld.brushes.length by decide)] at hget
  rw [hr]
  refine ⟨by norm_num, by norm_num, _, hget, ?_, ?_, ?_, ?_⟩
  · show lerp Float64.tenth Float64.fifth (exampleEnv.random (exampleWorld.randoms + 2)) = _
    rw [hr]
  · show lerp Float64.tenth Float64.fifth (exampleEnv.random (exampleWorld.randoms + 2)) = _
    rw [hr, lerp_tenth_fifth_eighth]
  · show lerp Float64.tenth Float64.fifth (exampleEnv.random (exampleWorld.randoms + 2)) ≠ _
    rw [hr, lerp_tenth_fifth_eighth]
    norm_num
  · show lerp Float64.tenth Float64.fifth (exampleEnv.random (exampleWorld.randoms + 2)) ≠ _
    rw [hr, lerp_tenth_fifth_eighth, offset_form_eighth]
    norm_num

/-- C5 (amended): after `randomizeBrushes`, for every brush of the pool and every value `r`
in `[0, 1)` returned by the random source for it, the x, y and z components of the scale of
the brush are all the same scalar `s = lerp(0.1, 0.2, r)`, computed in binary64 as
`(1 - r) * 0.1 + r * 0.2`; `s` is within `2 ^ -53` of `0.1 + (0.2 - 0.1) * r`, and
`0.1 ≤ s ≤ 0.2` for the doubles denoted by `0.1` and `0.2`. -/
theorem randomizeBrushes_scale_uniform_in_range (env : Env) (w : World) (i : Nat)
    (hi : i < w.brushes.length)
    (hr : 0 ≤ env.random (w.randoms + i) ∧ env.random (w.randoms + i) < 1) :
    ∃ b s, (randomizeBrushes env w).brushes[i]? = some b ∧
      s = lerp Float64.tenth Float64.fifth (env.random (w.randoms + i)) ∧
      b.scale.x = s ∧ b.scale.y = s ∧ b.scale.z = s ∧
      |s - (1 / 10 + (2 / 10 - 1 / 10) * env.random (w.randoms + i))| ≤ 1 / 2 ^ 53 ∧
      Float64.tenth ≤ s ∧ s ≤ Float64.fifth := by
  have hget := randomizeBrushes.get env w i
  rw [List.getElem?_eq_getElem hi] at hget
  obtain ⟨h1, h2, h3⟩ := lerp_tenth_fifth (env.random (w.randoms + i)) hr.1 hr.2
  exact ⟨_, _, hget, rfl, rfl, rfl, rfl, h3, h1, h2⟩

theorem randomizeBrushes_scale_uniform_in_range_witness :
    ∃ b s, (randomizeBrushes exampleEnv exampleWorld).brushes[1]? = some b ∧
      s = lerp Float64.tenth Float64.fifth (exampleEnv.random (exampleWorld.randoms + 1)) ∧
      b.scale.x = s ∧ b.scale.y = s ∧ b.scale.z = s ∧
      |s - (1 / 10 + (2 / 10 - 1 / 10) * exampleEnv.random (exampleWorld.randoms + 1))| ≤
        1 / 2 ^ 53 ∧
      Float64.tenth ≤ s ∧ s ≤ Float64.fifth :=
  randomizeBrushes_scale_uniform_in_range exampleEnv exampleWorld 1 (by decide)
    (by norm_num [exampleEnv, exampleWorld])

/-- C6: after `randomizeBrushes`, for every index `i` of the pool, the position of
`brushes[i]` is the world matrix of the base solid applied to the `i`-th point returned by
the surface sampler during the call (one query per brush, in pool order), whatever the
position was before; the base solid itself is not changed. -/
theorem randomizeBrushes_position_is_transformed_sample (env : Env) (w : World) (i : Nat)
    (hi : i < w.brushes.length) :
    (randomizeBrushes env w).samples = w.samples + w.brushes.length ∧
    (randomizeBrushes env w).bunnyBrush = w.bunnyBrush ∧
    (randomizeBrushes env w).brushes.length = w.brushes.length ∧
    ∃ b, (randomizeBrushes env w).brushes[i]? = some b ∧
      b.position = (env.sample (w.samples + i)).applyMatrix4 w.bunnyBrush.matrixWorld := by
  have hget := randomizeBrushes.get env w i
  rw [List.getElem?_eq_getElem hi] at hget
  have hq := (randomizeBrushes.loop_queries env w.brushes.length 0 w (by omega)).1
  have hf := randomizeBrushes.loop_frame env w.brushes.length 0 w
  refine ⟨by simpa [randomizeBrushes] using hq, hf.1, hf.2.1, _, hget, rfl⟩

theorem randomizeBrushes_position_is_transformed_sample_witness :
    (randomizeBrushes exampleEnv exampleWorld).samples =
      exampleWorld.samples + exampleWorld.brushes.length ∧
    (randomizeBrushes exampleEnv exampleWorld).bunnyBrush = exampleWorld.bunnyBrush ∧
    (randomizeBrushes exampleEnv exampleWorld).brushes.length = exampleWorld.brushes.length ∧
    ∃ b, (randomizeBrushes exampleEnv exampleWorld).brushes[2]? = some b ∧
      b.position =
        (exampleEnv.sample (exampleWorld.samples + 2)).applyMatrix4
          exampleWorld.bunnyBrush.matrixWorld :=
  randomizeBrushes_position_is_transformed_sample exampleEnv exampleWorld 2 (by decide)

/-- C1: for every pool with a first brush and `N - 1` further brushes and every evaluator,
the first part of `updateCSG` is the left fold `((b0 ∪ b1) ∪ b2) ∪ …` over the pool in
pool order, each step being `Brush( E.evaluate( accumulated, next, ADDITION ) )`; the log of
the run is the log of that fold followed, when the fold completes, by the composition call
whose second operand is the composite of the fold. -/
theorem updateCSG_composite_is_left_fold (E : Evaluator) (env : Env) (w : World)
    (first : Brush) (rest : List Brush) (hw : w.brushes = first :: rest) :
    updateCSG.fold E { w with clockReads := w.clockReads + 1 } =
      ((rest.foldl (unionStep E) (.ok first, { w with clockReads := w.clockReads + 1 })).1.map some,
       (rest.foldl (unionStep E) (.ok first, { w with clockReads := w.clockReads + 1 })).2) ∧
    (updateCSG E env w).2.calls =
      (rest.foldl (unionStep E) (.ok first, { w with clockReads := w.clockReads + 1 })).2.calls ++
        match (rest.foldl (unionStep E) (.ok first, { w with clockReads := w.clockReads + 1 })).1 with
        | .ok composite => [compositionCall w (some composite)]
        | .error _ => [] := by
  have hfold := updateCSG.fold_eq_unionFold E { w with clockReads := w.clockReads + 1 }
    first rest hw
  unfold unionFold at hfold
  refine ⟨hfold, ?_⟩
  rw [updateCSG_eq, hfold]
  generalize rest.foldl (unionStep E) (.ok first, { w with clockReads := w.clockReads + 1 }) = out
  obtain ⟨r, w1⟩ := out
  cases r with
  | error f => simp [Except.map]
  | ok composite =>
    simp only [Except.map]
    cases hc : E.compute (some w.bunnyBrush) (some composite) w.operation <;> simp

theorem updateCSG_composite_is_left_fold_witness :
    updateCSG.fold exampleEvaluator
        { exampleWorld with clockReads := exampleWorld.clockReads + 1 } =
      (([exampleBrush 11, exampleBrush 12].foldl (unionStep exampleEvaluator)
          (.ok (exampleBrush 10),
            { exampleWorld with clockReads := exampleWorld.clockReads + 1 })).1.map some,
       ([exampleBrush 11, exampleBrush 12].foldl (unionStep exampleEvaluator)
          (.ok (exampleBrush 10),
            { exampleWorld with clockReads := exampleWorld.clockReads + 1 })).2) ∧
    (updateCSG exampleEvaluator exampleEnv exampleWorld).2.calls =
      ([exampleBrush 11, exampleBrush 12].foldl (unionStep exampleEvaluator)
          (.ok (exampleBrush 10),
            { exampleWorld with clockReads := exampleWorld.clockReads + 1 })).2.calls ++
        match ([exampleBrush 11, exampleBrush 12].foldl (unionStep exampleEvaluator)
          (.ok (exampleBrush 10),
            { exampleWorld with clockReads := exampleWorld.clockReads + 1 })).1 with
        | .ok composite => [compositionCall exampleWorld (some composite)]
        | .error _ => [] :=
  updateCSG_composite_is_left_fold exampleEvaluator exampleEnv exampleWorld
    (exampleBrush 10) [exampleBrush 11, exampleBrush 12] rfl

/-- C2: for a pool of exactly one brush the composite of the fold is that brush itself
(the same object, unchanged): the fold makes no evaluator call and creates no object, and
the only evaluator call of the run is
`evaluate( bunnyBrush, brushes[0], params.operation, resultObject.geometry )`. -/
theorem updateCSG_single_brush_is_composite (E : Evaluator) (env : Env) (w : World)
    (b : Brush) (hw : w.brushes = [b]) :
    updateCSG.fold E { w with clockReads := w.clockReads + 1 } =
      (.ok (some b), { w with clockReads := w.clockReads + 1 }) ∧
    (updateCSG E env w).2.calls =
      w.calls ++ [⟨some w.bunnyBrush, some b, w.operation, some w.resultGeometry⟩] ∧
    (updateCSG E env w).2.nextId = w.nextId := by
  have hfold := updateCSG.fold_eq_unionFold E { w with clockReads := w.clockReads + 1 }
    b [] hw
  simp only [unionFold, List.foldl, Except.map] at hfold
  refine ⟨hfold, ?_⟩
  rw [updateCSG_eq, hfold]
  simp only [compositionCall]
  cases hc : E.compute (some w.bunnyBrush) (some b) w.operation <;> simp

theorem updateCSG_single_brush_is_composite_witness :
    updateCSG.fold exampleEvaluator
        { exampleWorldSingle with clockReads := exampleWorldSingle.clockReads + 1 } =
      (.ok (some (exampleBrush 10)),
        { exampleWorldSingle with clockReads := exampleWorldSingle.clockReads + 1 }) ∧
    (updateCSG exampleEvaluator exampleEnv exampleWorldSingle).2.calls =
      exampleWorldSingle.calls ++
        [⟨some exampleWorldSingle.bunnyBrush, some (exampleBrush 10),
          exampleWorldSingle.operation, some exampleWorldSingle.resultGeometry⟩] ∧
    (updateCSG exampleEvaluator exampleEnv exampleWorldSingle).2.nextId =
      exampleWorldSingle.nextId :=
  updateCSG_single_brush_is_composite exampleEvaluator exampleEnv exampleWorldSingle
    (exampleBrush 10) rfl

/-- C10: for every pool of size `N ≥ 1`, a run of `updateCSG` that is not cut short by an
exception invokes the evaluator exactly `N` times: `N - 1` calls with operator `ADDITION`
and no output buffer (the fold, each followed by the creation of one geometry and one
Brush), then one composition call. Whether or not it is cut short, the run never makes
more than `N` calls. -/
theorem updateCSG_evaluator_call_count (E : Evaluator) (env : Env) (w : World)
    (hN : 1 ≤ w.brushes.length) :
    ((updateCSG E env w).2.callsSince w.calls.length).length ≤ w.brushes.length ∧
    ((updateCSG E env w).1 = none →
      ((updateCSG E env w).2.callsSince w.calls.length).length = w.brushes.length ∧
      (updateCSG E env w).2.nextId = w.nextId + 2 * (w.brushes.length - 1) ∧
      ∃ foldCalls final,
        (updateCSG E env w).2.calls = w.calls ++ foldCalls ++ [final] ∧
        foldCalls.length = w.brushes.length - 1 ∧
        (∀ c ∈ foldCalls, c.operation = Operation.ADDITION ∧ c.target = none) ∧
        final.a = some w.bunnyBrush ∧ final.operation = w.operation ∧
        final.target = some w.resultGeometry) := by
  obtain ⟨foldCalls, r, w1, _, hlog, heq⟩ :=
    updateCSG_account E env w (fun _ => True) (fun _ _ => trivial) (fun _ _ => trivial)
  have hcalls : w1.calls = w.calls ++ foldCalls := hlog.calls
  have hlen := hlog.length_le
  cases r with
  | error f =>
    simp only at heq
    rw [heq]
    simp only [World.callsSince, hcalls, List.drop_left]
    refine ⟨by omega, ?_⟩
    intro h
    simp at h
  | ok finalBrush =>
    obtain ⟨h1, h2, _⟩ := hlog.done finalBrush rfl
    simp only at heq h2
    cases hc : E.compute (some w.bunnyBrush) finalBrush w.operation with
    | error f =>
      rw [hc] at heq
      simp only at heq
      rw [heq]
      simp only [World.callsSince, hcalls, List.append_assoc, List.drop_left]
      refine ⟨by simp only [List.length_append, List.length_singleton]; omega, ?_⟩
      intro h
      simp at h
    | ok d =>
      rw [hc] at heq
      simp only at heq
      rw [heq]
      simp only [World.callsSince, hcalls, List.append_assoc, List.drop_left]
      refine ⟨by simp only [List.length_append, List.length_singleton]; omega, ?_⟩
      intro _
      refine ⟨by simp only [List.length_append, List.length_singleton]; omega, h2, ?_⟩
      refine ⟨foldCalls, compositionCall w finalBrush, by simp, h1, hlog.addition, rfl, rfl, rfl⟩

theorem updateCSG_evaluator_call_count_witness :
    ((updateCSG exampleEvaluator exampleEnv exampleWorld).2.callsSince
        exampleWorld.calls.length).length ≤ exampleWorld.brushes.length ∧
    ((updateCSG exampleEvaluator exampleEnv exampleWorld).1 = none →
      ((updateCSG exampleEvaluator exampleEnv exampleWorld).2.callsSince
          exampleWorld.calls.length).length = exampleWorld.brushes.length ∧
      (updateCSG exampleEvaluator exampleEnv exampleWorld).2.nextId =
        exampleWorld.nextId + 2 * (exampleWorld.brushes.length - 1) ∧
      ∃ foldCalls final,
        (updateCSG exampleEvaluator exampleEnv exampleWorld).2.calls =
          exampleWorld.calls ++ foldCalls ++ [final] ∧
        foldCalls.length = exampleWorld.brushes.length - 1 ∧
        (∀ c ∈ foldCalls, c.operation = Operation.ADDITION ∧ c.target = none) ∧
        final.a = some exampleWorld.bunnyBrush ∧ final.operation = exampleWorld.operation ∧
        final.target = some exampleWorld.resultGeometry) ∧
    (updateCSG exampleEvaluator exampleEnv exampleWorld).1 = none :=
  ⟨(updateCSG_evaluator_call_count exampleEvaluator exampleEnv exampleWorld (by decide)).1,
   (updateCSG_evaluator_call_count exampleEvaluator exampleEnv exampleWorld (by decide)).2,
   by rfl⟩

/-- The two geometry references are the same object in every state reached from startup:
`wireframeResult` was built on `resultObject.geometry` and neither reference is assigned
again. -/
theorem run_shares_output_buffer (E : Evaluator) (env : Env) (bunny sphere : List Vector3)
    (events : List Event) :
    (run E env bunny sphere events).wireframeGeometry =
      (run E env bunny sphere events).resultGeometry := by
  have hupd : ∀ (w : World), (updateCSG E env w).2.wireframeGeometry = w.wireframeGeometry ∧
      (updateCSG E env w).2.resultGeometry = w.resultGeometry := by
    intro w
    obtain ⟨foldCalls, r, w1, _, hlog, heq⟩ :=
      updateCSG_account E env w (fun _ => True) (fun _ _ => trivial) (fun _ _ => trivial)
    have hfix := hlog.fixed
    simp only [World.fixed, Prod.mk.injEq] at hfix
    obtain ⟨_, _, _, h4, h5, _⟩ := hfix
    rw [heq]
    cases r with
    | error f => exact ⟨h5, h4⟩
    | ok finalBrush =>
      simp only
      cases E.compute (some w.bunnyBrush) finalBrush w.operation <;> exact ⟨h5, h4⟩
  have hrand : ∀ (w : World), (randomizeBrushes env w).wireframeGeometry = w.wireframeGeometry ∧
      (randomizeBrushes env w).resultGeometry = w.resultGeometry := by
    intro w
    have hf := randomizeBrushes.loop_frame env w.brushes.length 0 w
    exact ⟨hf.2.2.2.2.2.1, hf.2.2.2.2.1⟩
  have hfire : ∀ (e : Event) (w : World), w.wireframeGeometry = w.resultGeometry →
      (fire E env e w).2.wireframeGeometry = (fire E env e w).2.resultGeometry := by
    intro e w hw
    cases e with
    | randomize =>
      simp only [fire]
      rw [(hupd _).1, (hupd _).2, (hrand _).1, (hrand _).2, hw]
    | operationChanged op =>
      simp only [fire]
      rw [(hupd _).1, (hupd _).2]
      exact hw
  have hinit : (init E env bunny sphere).2.wireframeGeometry =
      (init E env bunny sphere).2.resultGeometry := by
    simp only [init]
    rw [(hupd _).1, (hupd _).2, (hrand _).1, (hrand _).2]
  unfold run
  generalize (init E env bunny sphere).2 = w0 at hinit
  induction events generalizing w0 with
  | nil => exact hinit
  | cons e events ih => exact ih _ (hfire e w0 hinit)

/-- C4: every run of `updateCSG` leaves the references `resultObject.geometry` and
`wireframeResult.geometry` as they were (and in every reachable state they are one shared
object); no fold call passes an output buffer; at most one call passes one, it comes last
and its arguments are `(bunnyBrush, composite of the fold, params.operation,
resultObject.geometry)`; a run that is not cut short by an exception makes that call
exactly once and the data it returns is then the content of that buffer. -/
theorem updateCSG_composition_writes_output_buffer (E : Evaluator) (env : Env) (w : World)
    (bunny sphere : List Vector3) (events : List Event) :
    (updateCSG E env w).2.resultGeometry = w.resultGeometry ∧
    (updateCSG E env w).2.wireframeGeometry = w.wireframeGeometry ∧
    (run E env bunny sphere events).wireframeGeometry =
      (run E env bunny sphere events).resultGeometry ∧
    ∃ foldCalls finalCalls,
      (updateCSG E env w).2.calls = w.calls ++ foldCalls ++ finalCalls ∧
      (∀ c ∈ foldCalls, c.operation = Operation.ADDITION ∧ c.target = none) ∧
      finalCalls.length ≤ 1 ∧
      (∀ c ∈ finalCalls, ∃ composite,
        (updateCSG.fold E { w with clockReads := w.clockReads + 1 }).1 = .ok composite ∧
        c = ⟨some w.bunnyBrush, composite, w.operation, some w.resultGeometry⟩) ∧
      ((updateCSG E env w).1 = none →
        ∃ composite d,
          (updateCSG.fold E { w with clockReads := w.clockReads + 1 }).1 = .ok composite ∧
          finalCalls = [⟨some w.bunnyBrush, composite, w.operation, some w.resultGeometry⟩] ∧
          E.compute (some w.bunnyBrush) composite w.operation = .ok d ∧
          (updateCSG E env w).2.heap w.resultGeometry = d ∧
          ∀ i, i ≠ w.resultGeometry → (updateCSG E env w).2.heap i = w.heap i) := by
  obtain ⟨foldCalls, r, w1, hfold, hlog, heq⟩ :=
    updateCSG_account E env w (fun _ => True) (fun _ _ => trivial) (fun _ _ => trivial)
  have hcalls : w1.calls = w.calls ++ foldCalls := hlog.calls
  have hfix := hlog.fixed
  simp only [World.fixed, Prod.mk.injEq] at hfix
  obtain ⟨_, _, _, h4, h5, _⟩ := hfix
  refine ⟨?_, ?_, run_shares_output_buffer E env bunny sphere events, ?_⟩
  · rw [heq]
    cases r with
    | error f => exact h4
    | ok finalBrush =>
      simp only
      cases E.compute (some w.bunnyBrush) finalBrush w.operation <;> exact h4
  · rw [heq]
    cases r with
    | error f => exact h5
    | ok finalBrush =>
      simp only
      cases E.compute (some w.bunnyBrush) finalBrush w.operation <;> exact h5
  · rw [hfold]
    cases r with
    | error f =>
      simp only at heq
      refine ⟨foldCalls, [], by rw [heq]; simpa using hcalls, hlog.addition, by simp, by simp, ?_⟩
      intro h
      rw [heq] at h
      simp at h
    | ok finalBrush =>
      simp only at heq
      cases hc : E.compute (some w.bunnyBrush) finalBrush w.operation with
      | error f =>
        rw [hc] at heq
        simp only at heq
        refine ⟨foldCalls, [compositionCall w finalBrush], by rw [heq]; simp [hcalls],
          hlog.addition, by simp, ?_, ?_⟩
        · intro c hcm
          simp only [List.mem_singleton] at hcm
          exact ⟨finalBrush, rfl, hcm⟩
        · intro h
          rw [heq] at h
          simp at h
      | ok d =>
        rw [hc] at heq
        simp only at heq
        refine ⟨foldCalls, [compositionCall w finalBrush], by rw [heq]; simp [hcalls],
          hlog.addition, by simp, ?_, ?_⟩
        · intro c hcm
          simp only [List.mem_singleton] at hcm
          exact ⟨finalBrush, rfl, hcm⟩
        · intro _
          refine ⟨finalBrush, d, rfl, rfl, hc, by rw [heq]; simp, ?_⟩
          intro i hi
          rw [heq]
          simp [hi]

theorem updateCSG_composition_writes_output_buffer_witness :
    ((updateCSG exampleEvaluator exampleEnv exampleWorld).2.resultGeometry =
        exampleWorld.resultGeometry ∧
      (updateCSG exampleEvaluator exampleEnv exampleWorld).2.wireframeGeometry =
        exampleWorld.wireframeGeometry ∧
      (run exampleEvaluator exampleEnv [] [] [Event.randomize]).wireframeGeometry =
        (run exampleEvaluator exampleEnv [] [] [Event.randomize]).resultGeometry ∧
      ∃ foldCalls finalCalls,
        (updateCSG exampleEvaluator exampleEnv exampleWorld).2.calls =
          exampleWorld.calls ++ foldCalls ++ finalCalls ∧
        (∀ c ∈ foldCalls, c.operation = Operation.ADDITION ∧ c.target = none) ∧
        finalCalls.length ≤ 1 ∧
        (∀ c ∈ finalCalls, ∃ composite,
          (updateCSG.fold exampleEvaluator
            { exampleWorld with clockReads := exampleWorld.clockReads + 1 }).1 = .ok composite ∧
          c = ⟨some exampleWorld.bunnyBrush, composite, exampleWorld.operation,
            some exampleWorld.resultGeometry⟩) ∧
        ((updateCSG exampleEvaluator exampleEnv exampleWorld).1 = none →
          ∃ composite d,
            (updateCSG.fold exampleEvaluator
              { exampleWorld with clockReads := exampleWorld.clockReads + 1 }).1 = .ok composite ∧
            finalCalls = [⟨some exampleWorld.bunnyBrush, composite, exampleWorld.operation,
              some exampleWorld.resultGeometry⟩] ∧
            exampleEvaluator.compute (some exampleWorld.bunnyBrush) composite
              exampleWorld.operation = .ok d ∧
            (updateCSG exampleEvaluator exampleEnv exampleWorld).2.heap
              exampleWorld.resultGeometry = d ∧
            ∀ i, i ≠ exampleWorld.resultGeometry →
              (updateCSG exampleEvaluator exampleEnv exampleWorld).2.heap i =
                exampleWorld.heap i)) ∧
    (updateCSG exampleEvaluator exampleEnv exampleWorld).1 = none :=
  ⟨updateCSG_composition_writes_output_buffer exampleEvaluator exampleEnv exampleWorld [] []
      [Event.randomize],
   by rfl⟩

/-- C9: if the evaluator throws on a call made by `updateCSG` (a fold step or the
composition step), then the run ends with that same error (it is not caught), the throwing
call is the last call of the run (no later call, no retry), and the timing text and the
output buffer are left as they were. -/
theorem updateCSG_evaluator_failure_propagates (E : Evaluator) (env : Env) (w : World)
    (k : Nat) (c : Call) (f : Fault)
    (hk : ((updateCSG E env w).2.callsSince w.calls.length)[k]? = some c)
    (hf : E.compute c.a c.b c.operation = .error f) :
    (updateCSG E env w).1 = some f ∧
    k + 1 = ((updateCSG E env w).2.callsSince w.calls.length).length ∧
    (updateCSG E env w).2.innerText = w.innerText ∧
    (updateCSG E env w).2.heap = w.heap := by
  obtain ⟨foldCalls, r, w1, _, hlog, heq⟩ :=
    updateCSG_account E env w (fun _ => True) (fun _ _ => trivial) (fun _ _ => trivial)
  have hcalls : w1.calls = w.calls ++ foldCalls := hlog.calls
  have hheap : w1.heap = w.heap := hlog.heap
  have hfix := hlog.fixed
  simp only [World.fixed, Prod.mk.injEq] at hfix
  obtain ⟨_, _, _, _, _, h6, _⟩ := hfix
  cases r with
  | error f0 =>
    simp only at heq
    rw [heq] at hk ⊢
    simp only [World.callsSince, hcalls, List.drop_left] at hk ⊢
    obtain ⟨h1, h2⟩ := hlog.failing k c f hk hf
    simp only [Except.error.injEq] at h2
    exact ⟨by rw [h2], h1, h6, hheap⟩
  | ok finalBrush =>
    simp only at heq
    have hfoldok : ∀ (j : Nat) (c1 : Call) (f1 : Fault), foldCalls[j]? = some c1 →
        E.compute c1.a c1.b c1.operation = .error f1 → False := by
      intro j c1 f1 hj hf1
      have := (hlog.failing j c1 f1 hj hf1).2
      simp at this
    cases hc : E.compute (some w.bunnyBrush) finalBrush w.operation with
    | error f0 =>
      rw [hc] at heq
      simp only at heq
      rw [heq] at hk ⊢
      simp only [World.callsSince, hcalls, List.append_assoc, List.drop_left] at hk ⊢
      by_cases hlt : k < foldCalls.length
      · rw [List.getElem?_append_left hlt] at hk
        exact (hfoldok k c f hk hf).elim
      · rw [List.getElem?_append_right (by omega)] at hk
        have hk0 : k - foldCalls.length = 0 := by
          by_contra hne
          obtain ⟨m, hm⟩ := Nat.exists_eq_succ_of_ne_zero hne
          rw [hm] at hk
          simp at hk
        rw [hk0] at hk
        simp only [List.getElem?_cons_zero, Option.some.injEq] at hk
        subst hk
        simp only [compositionCall] at hf
        rw [hc] at hf
        simp only [Except.error.injEq] at hf
        refine ⟨by rw [hf], ?_, h6, hheap⟩
        simp only [List.length_append, List.length_singleton]
        omega
    | ok d =>
      rw [hc] at heq
      simp only at heq
      rw [heq] at hk
      simp only [World.callsSince, hcalls, List.append_assoc, List.drop_left] at hk
      by_cases hlt : k < foldCalls.length
      · rw [List.getElem?_append_left hlt] at hk
        exact (hfoldok k c f hk hf).elim
      · rw [List.getElem?_append_right (by omega)] at hk
        have hk0 : k - foldCalls.length = 0 := by
          by_contra hne
          obtain ⟨m, hm⟩ := Nat.exists_eq_succ_of_ne_zero hne
          rw [hm] at hk
          simp at hk
        rw [hk0] at hk
        simp only [List.getElem?_cons_zero, Option.some.injEq] at hk
        subst hk
        simp only [compositionCall] at hf
        rw [hc] at hf
        cases hf

theorem updateCSG_evaluator_failure_propagates_witness :
    ((updateCSG throwingEvaluator exampleEnv exampleWorld).2.callsSince
        exampleWorld.calls.length)[1]? =
      some ⟨some (Brush.new 201 ⟨200, [⟨((10 : Nat) : ℚ), 0, 0⟩, ⟨((11 : Nat) : ℚ), 0, 0⟩]⟩),
        some (exampleBrush 12), Operation.ADDITION, none⟩ ∧
    (updateCSG throwingEvaluator exampleEnv exampleWorld).1 = some ⟨"degenerate operand"⟩ ∧
    1 + 1 = ((updateCSG throwingEvaluator exampleEnv exampleWorld).2.callsSince
        exampleWorld.calls.length).length ∧
    (updateCSG throwingEvaluator exampleEnv exampleWorld).2.innerText =
      exampleWorld.innerText ∧
    (updateCSG throwingEvaluator exampleEnv exampleWorld).2.heap = exampleWorld.heap :=
  ⟨by rfl,
   updateCSG_evaluator_failure_propagates throwingEvaluator exampleEnv exampleWorld 1
    ⟨some (Brush.new 201 ⟨200, [⟨((10 : Nat) : ℚ), 0, 0⟩, ⟨((11 : Nat) : ℚ), 0, 0⟩]⟩),
      some (exampleBrush 12), Operation.ADDITION, none⟩
    ⟨"degenerate operand"⟩ (by rfl) (by rfl)⟩

/-- C8: an operator-changed event runs `updateCSG` only. For every pool and every new
operator the pool (length, order, and each brush with its position, scale and world
transform) and the base solid are the same after the event as before, and no sample or
random value is drawn; when the run is not cut short by an exception, the fold is made
again from the pool (its `N - 1` calls are in the log of the event) and the output buffer
then holds what the evaluator returns for the base solid, that fold and the new operator. -/
theorem operationChanged_recomposes_unchanged_pool (E : Evaluator) (env : Env) (w : World)
    (op : Operation) :
    (fire E env (Event.operationChanged op) w).2.brushes = w.brushes ∧
    (fire E env (Event.operationChanged op) w).2.bunnyBrush = w.bunnyBrush ∧
    (fire E env (Event.operationChanged op) w).2.samples = w.samples ∧
    (fire E env (Event.operationChanged op) w).2.randoms = w.randoms ∧
    (fire E env (Event.operationChanged op) w).2.operation = op ∧
    ((fire E env (Event.operationChanged op) w).1 = none →
      ∃ foldCalls composite d,
        (updateCSG.fold E { w with operation := op, clockReads := w.clockReads + 1 }).1 =
          .ok composite ∧
        foldCalls.length = w.brushes.length - 1 ∧
        (∀ c ∈ foldCalls, c.operation = Operation.ADDITION ∧ c.target = none) ∧
        (fire E env (Event.operationChanged op) w).2.calls =
          w.calls ++ foldCalls ++ [⟨some w.bunnyBrush, composite, op, some w.resultGeometry⟩] ∧
        E.compute (some w.bunnyBrush) composite op = .ok d ∧
        (fire E env (Event.operationChanged op) w).2.heap w.resultGeometry = d) := by
  simp only [fire]
  obtain ⟨foldCalls, r, w1, hfold, hlog, heq⟩ :=
    updateCSG_account E env { w with operation := op } (fun _ => True) (fun _ _ => trivial)
      (fun _ _ => trivial)
  have hcalls : w1.calls = w.calls ++ foldCalls := hlog.calls
  have hfix := hlog.fixed
  simp only [World.fixed, Prod.mk.injEq] at hfix
  obtain ⟨h1, h2, h3, _, _, _, h7, h8, _⟩ := hfix
  have hfold' : updateCSG.fold E { w with operation := op, clockReads := w.clockReads + 1 } =
      (r, w1) := hfold
  rw [hfold', heq]
  cases r with
  | error f =>
    simp only
    refine ⟨h2, h1, h7, h8, h3, ?_⟩
    intro h
    simp at h
  | ok finalBrush =>
    obtain ⟨hlen, _, _⟩ := hlog.done finalBrush rfl
    simp only at hlen ⊢
    cases hc : E.compute (some w.bunnyBrush) finalBrush op with
    | error f =>
      simp only
      refine ⟨h2, h1, h7, h8, h3, ?_⟩
      intro h
      simp at h
    | ok d =>
      simp only
      refine ⟨h2, h1, h7, h8, h3, ?_⟩
      intro _
      refine ⟨foldCalls, finalBrush, d, rfl, hlen, hlog.addition, ?_, hc, by simp⟩
      simp [hcalls, compositionCall]

theorem operationChanged_recomposes_unchanged_pool_witness :
    ((fire exampleEvaluator exampleEnv (Event.operationChanged Operation.INTERSECTION)
        exampleWorld).2.brushes = exampleWorld.brushes ∧
      (fire exampleEvaluator exampleEnv (Event.operationChanged Operation.INTERSECTION)
        exampleWorld).2.bunnyBrush = exampleWorld.bunnyBrush ∧
      (fire exampleEvaluator exampleEnv (Event.operationChanged Operation.INTERSECTION)
        exampleWorld).2.samples = exampleWorld.samples ∧
      (fire exampleEvaluator exampleEnv (Event.operationChanged Operation.INTERSECTION)
        exampleWorld).2.randoms = exampleWorld.randoms ∧
      (fire exampleEvaluator exampleEnv (Event.operationChanged Operation.INTERSECTION)
        exampleWorld).2.operation = Operation.INTERSECTION ∧
      ((fire exampleEvaluator exampleEnv (Event.operationChanged Operation.INTERSECTION)
          exampleWorld).1 = none →
        ∃ foldCalls composite d,
          (updateCSG.fold exampleEvaluator
            { exampleWorld with
              operation := Operation.INTERSECTION
              clockReads := exampleWorld.clockReads + 1 }).1 = .ok composite ∧
          foldCalls.length = exampleWorld.brushes.length - 1 ∧
          (∀ c ∈ foldCalls, c.operation = Operation.ADDITION ∧ c.target = none) ∧
          (fire exampleEvaluator exampleEnv (Event.operationChanged Operation.INTERSECTION)
            exampleWorld).2.calls =
            exampleWorld.calls ++ foldCalls ++
              [⟨some exampleWorld.bunnyBrush, composite, Operation.INTERSECTION,
                some exampleWorld.resultGeometry⟩] ∧
          exampleEvaluator.compute (some exampleWorld.bunnyBrush) composite
            Operation.INTERSECTION = .ok d ∧
          (fire exampleEvaluator exampleEnv (Event.operationChanged Operation.INTERSECTION)
            exampleWorld).2.heap exampleWorld.resultGeometry = d)) ∧
    (fire exampleEvaluator exampleEnv (Event.operationChanged Operation.INTERSECTION)
      exampleWorld).1 = none :=
  ⟨operationChanged_recomposes_unchanged_pool exampleEvaluator exampleEnv exampleWorld
      Operation.INTERSECTION,
   by rfl⟩

theorem foldl_joinVolume_some {V : Type} (union : V → V → V) (vol : Brush → V) :
    ∀ (l : List Brush) (u : V),
    l.foldl (joinVolume union vol) (some u) =
      some (l.foldl (fun acc b => union acc (vol b)) u) := by
  intro l
  induction l with
  | nil => intro u; rfl
  | cons b l ih => intro u; simp only [List.foldl, joinVolume]; exact ih _

/-- For a commutative and associative union, folding the volumes of a pool from its first
brush gives the same volume for every order of the pool. -/
theorem foldl_union_perm {V : Type} (union : V → V → V) (vol : Brush → V)
    (hcomm : ∀ x y, union x y = union y x)
    (hassoc : ∀ x y z, union (union x y) z = union x (union y z))
    (first first' : Brush) (rest rest' : List Brush)
    (hperm : (first' :: rest').Perm (first :: rest)) :
    rest'.foldl (fun acc b => union acc (vol b)) (vol first') =
      rest.foldl (fun acc b => union acc (vol b)) (vol first) := by
  have h := List.Perm.foldl_eq' (f := joinVolume union vol) hperm
    (by
      intro x _ y _ z
      cases z with
      | none => simp only [joinVolume, hcomm (vol x) (vol y)]
      | some u =>
        simp only [joinVolume, Option.some.injEq]
        rw [hassoc, hassoc, hcomm (vol x) (vol y)])
    none
  simp only [List.foldl, joinVolume, foldl_joinVolume_some, Option.some.injEq] at h
  exact h

/-- When every `ADDITION` of the evaluator succeeds and has as volume the union of the
volumes of its operands, the reducer completes and the volume of its composite is the fold
of the volumes. -/
theorem foldl_unionStep_volume {V : Type} (E : Evaluator) (vol : Brush → V)
    (union : V → V → V)
    (hE : ∀ a b : Brush, ∃ d, E.compute (some a) (some b) Operation.ADDITION = .ok d ∧
      ∀ id gid, vol (Brush.new id ⟨gid, d⟩) = union (vol a) (vol b)) :
    ∀ (rest : List Brush) (a : Brush) (w : World),
    ∃ c w1, rest.foldl (unionStep E) (.ok a, w) = (.ok c, w1) ∧
      vol c = rest.foldl (fun acc b => union acc (vol b)) (vol a) := by
  intro rest
  induction rest with
  | nil => intro a w; exact ⟨a, w, rfl, rfl⟩
  | cons b rest ih =>
    intro a w
    obtain ⟨d, hd, hvol⟩ := hE a b
    simp only [List.foldl, unionStep]
    rw [evaluate_ok_none E _ _ _ _ d hd]
    simp only [newBrush]
    obtain ⟨c, w1, h1, h2⟩ := ih (Brush.new (w.nextId + 1) ⟨w.nextId, d⟩)
      { w with calls := w.calls ++ [⟨some a, some b, Operation.ADDITION, none⟩],
               nextId := w.nextId + 1 + 1 }
    refine ⟨c, w1, h1, ?_⟩
    rw [h2, hvol]

/-- C3: for every pool of size `N ≥ 1` and every reordering of it, assuming that the
`ADDITION` of the evaluator always succeeds and is, in terms of a volume `vol`, a
commutative and associative union, the fold of `updateCSG` over the reordered pool yields a
composite of the same volume as the fold over the original pool, and that volume is the
union of the volumes of all brushes of the pool. -/
theorem updateCSG_fold_order_independent {V : Type} (E : Evaluator) (vol : Brush → V)
    (union : V → V → V)
    (hcomm : ∀ x y, union x y = union y x)
    (hassoc : ∀ x y z, union (union x y) z = union x (union y z))
    (hE : ∀ a b : Brush, ∃ d, E.compute (some a) (some b) Operation.ADDITION = .ok d ∧
      ∀ id gid, vol (Brush.new id ⟨gid, d⟩) = union (vol a) (vol b))
    (w w' : World) (first : Brush) (rest : List Brush) (hw : w.brushes = first :: rest)
    (hperm : w'.brushes.Perm w.brushes) :
    ∃ c c', (updateCSG.fold E w).1 = .ok (some c) ∧ (updateCSG.fold E w').1 = .ok (some c') ∧
      vol c' = vol c ∧
      vol c = rest.foldl (fun acc b => union acc (vol b)) (vol first) := by
  cases hw' : w'.brushes with
  | nil =>
    rw [hw', hw] at hperm
    exact absurd hperm.symm (List.cons_ne_nil _ _ ∘ List.Perm.eq_nil)
  | cons first' rest' =>
    obtain ⟨c, w1, h1, h2⟩ := foldl_unionStep_volume E vol union hE rest first w
    obtain ⟨c', w1', h1', h2'⟩ := foldl_unionStep_volume E vol union hE rest' first' w'
    refine ⟨c, c', ?_, ?_, ?_, h2⟩
    · rw [updateCSG.fold_eq_unionFold E w first rest hw]
      simp only [unionFold, h1, Except.map]
    · rw [updateCSG.fold_eq_unionFold E w' first' rest' hw']
      simp only [unionFold, h1', Except.map]
    · rw [h2, h2']
      apply foldl_union_perm union vol hcomm hassoc
      rw [← hw', ← hw]
      exact hperm

theorem updateCSG_fold_order_independent_witness :
    ∃ c c', (updateCSG.fold exampleEvaluator exampleWorld).1 = .ok (some c) ∧
      (updateCSG.fold exampleEvaluator exampleWorldPermuted).1 = .ok (some c') ∧
      vertexCount c' = vertexCount c ∧
      vertexCount c =
        [exampleBrush 11, exampleBrush 12].foldl (fun acc b => acc + vertexCount b)
          (vertexCount (exampleBrush 10)) :=
  updateCSG_fold_order_independent exampleEvaluator vertexCount (fun x y => x + y)
    (fun x y => Nat.add_comm x y) (fun x y z => Nat.add_assoc x y z)
    (fun a b => ⟨a.geometry.vertices ++ b.geometry.vertices, rfl,
      fun _ _ => List.length_append _ _⟩)
    exampleWorld exampleWorldPermuted (exampleBrush 10) [exampleBrush 11, exampleBrush 12] rfl
    ((List.Perm.swap (exampleBrush 10) (exampleBrush 12) [exampleBrush 11]).trans
      (List.Perm.cons (exampleBrush 10)
        (List.Perm.swap (exampleBrush 11) (exampleBrush 12) [])))

theorem Brush.new_upToDate (id : Nat) (g : BufferGeometry) : (Brush.new id g).upToDate := by
  simp [Brush.upToDate, Brush.new, Matrix4.compose, Matrix4.identity, Vector3.zero,
    Vector3.one, Quaternion.identity]

theorem Brush.updateMatrixWorld_upToDate (b : Brush) : b.updateMatrixWorld.upToDate := rfl

theorem randomizeBrushes.place_upToDate (m : Matrix4) (p : Vector3) (r : ℚ) (b : Brush) :
    (randomizeBrushes.place m p r b).upToDate := rfl

theorem randomizeBrushes_transformsFresh (env : Env) (w : World) (h : w.transformsFresh) :
    (randomizeBrushes env w).transformsFresh := by
  obtain ⟨h1, _, h3, h4⟩ := h
  have hf := randomizeBrushes.loop_frame env w.brushes.length 0 w
  refine ⟨?_, ?_, ?_, ?_⟩
  · show (randomizeBrushes.loop env w.brushes.length 0 w).bunnyBrush.upToDate
    rw [hf.1]; exact h1
  · intro b hb
    obtain ⟨i, hi⟩ := List.getElem?_of_mem hb
    rw [randomizeBrushes.get] at hi
    cases hx : w.brushes[i]? with
    | none => rw [hx] at hi; simp at hi
    | some x =>
      rw [hx] at hi
      simp only [Option.map_some', Option.some.injEq] at hi
      rw [← hi]
      exact randomizeBrushes.place_upToDate _ _ _ _
  · intro hnil
    have hlen := hf.2.1
    have : (randomizeBrushes env w).brushes.length = w.brushes.length := hlen
    rw [hnil] at this
    exact h3 (List.length_eq_zero.mp this.symm)
  · show ∀ c ∈ (randomizeBrushes.loop env w.brushes.length 0 w).calls, _
    rw [hf.2.2.2.2.2.2.2.2.2]; exact h4

theorem updateCSG_transformsFresh (E : Evaluator) (env : Env) (w : World)
    (h : w.transformsFresh) : (updateCSG E env w).2.transformsFresh := by
  obtain ⟨h1, h2, h3, h4⟩ := h
  obtain ⟨foldCalls, r, w1, _, hlog, heq⟩ :=
    updateCSG_account E env w Brush.upToDate Brush.new_upToDate h2
  have hcalls : w1.calls = w.calls ++ foldCalls := hlog.calls
  have hfix := hlog.fixed
  simp only [World.fixed, Prod.mk.injEq] at hfix
  obtain ⟨hb, hbr, _⟩ := hfix
  have hw1 : w1.transformsFresh := by
    refine ⟨by rw [hb]; exact h1, by rw [hbr]; exact h2, by rw [hbr]; exact h3, ?_⟩
    intro c hc
    rw [hcalls] at hc
    rcases List.mem_append.mp hc with hc | hc
    · exact h4 c hc
    · exact hlog.operands c hc
  rw [heq]
  cases r with
  | error f => exact hw1
  | ok finalBrush =>
    obtain ⟨_, _, hQ⟩ := hlog.done finalBrush rfl
    have hfb : ∃ b, finalBrush = some b ∧ b.upToDate := by
      rcases hQ with ⟨_, hnil⟩ | hsome
      · exact absurd hnil h3
      · exact hsome
    obtain ⟨fb, hfb1, hfb2⟩ := hfb
    have hfinal : ∀ c ∈ w1.calls ++ [compositionCall w finalBrush],
        ∃ a b, c.a = some a ∧ c.b = some b ∧ a.upToDate ∧ b.upToDate := by
      intro c hc
      rcases List.mem_append.mp hc with hc | hc
      · exact hw1.2.2.2 c hc
      · simp only [List.mem_singleton] at hc
        subst hc
        exact ⟨w.bunnyBrush, fb, rfl, hfb1, h1, hfb2⟩
    simp only
    cases E.compute (some w.bunnyBrush) finalBrush w.operation with
    | error f => exact ⟨hw1.1, hw1.2.1, hw1.2.2.1, hfinal⟩
    | ok d => exact ⟨hw1.1, hw1.2.1, hw1.2.2.1, hfinal⟩

theorem init.loop_pool (sphere : List Vector3) : ∀ (fuel i : Nat) (w : World),
    (∀ b ∈ w.brushes, b.upToDate) →
    (∀ b ∈ (init.loop sphere fuel i w).brushes, b.upToDate) ∧
    (init.loop sphere fuel i w).brushes.length = w.brushes.length + min fuel (50 - i) ∧
    (init.loop sphere fuel i w).bunnyBrush = w.bunnyBrush ∧
    (init.loop sphere fuel i w).calls = w.calls := by
  intro fuel
  induction fuel with
  | zero => intro i w h; simpa [init.loop] using h
  | succ fuel ih =>
    intro i w h
    simp only [init.loop]
    split
    · rename_i hi
      simp only [newBrush]
      have hstep := ih (i + 1)
        { w with nextId := w.nextId + 1 + 1
                 brushes := w.brushes ++ [Brush.new (w.nextId + 1) ⟨w.nextId, sphere⟩] }
        (by
          intro b hb
          rcases List.mem_append.mp hb with hb | hb
          · exact h b hb
          · simp only [List.mem_singleton] at hb
            rw [hb]; exact Brush.new_upToDate _ _)
      refine ⟨hstep.1, ?_, hstep.2.2.1, hstep.2.2.2⟩
      rw [hstep.2.1]
      simp only [List.length_append, List.length_singleton]
      omega
    · rename_i hi
      refine ⟨h, ?_, rfl, rfl⟩
      have : 50 - i = 0 := by omega
      simp [this]

theorem transformsFresh_of_fields (w w' : World) (hb : w'.bunnyBrush = w.bunnyBrush)
    (hbr : w'.brushes = w.brushes) (hc : w'.calls = w.calls) (h : w.transformsFresh) :
    w'.transformsFresh := by
  unfold World.transformsFresh
  rw [hb, hbr, hc]
  exact h

theorem init_transformsFresh (E : Evaluator) (env : Env) (bunny sphere : List Vector3) :
    (init E env bunny sphere).2.transformsFresh := by
  have key : ∀ W : World, W.bunnyBrush.upToDate → W.brushes = [] → W.calls = [] →
      (init.loop sphere 50 0 W).transformsFresh := by
    intro W hb hbr hc
    obtain ⟨hl1, hl2, hl3, hl4⟩ := init.loop_pool sphere 50 0 W (by rw [hbr]; simp)
    refine ⟨by rw [hl3]; exact hb, hl1, ?_, by rw [hl4, hc]; simp⟩
    intro hnil
    rw [hnil, hbr] at hl2
    simp at hl2
  unfold init
  apply updateCSG_transformsFresh
  apply randomizeBrushes_transformsFresh
  exact transformsFresh_of_fields (init.loop sphere 50 0 (init.start bunny)) _ rfl rfl rfl
    (key _ (Brush.updateMatrixWorld_upToDate _) rfl rfl)

theorem run_transformsFresh (E : Evaluator) (env : Env) (bunny sphere : List Vector3)
    (events : List Event) : (run E env bunny sphere events).transformsFresh := by
  have hinit := init_transformsFresh E env bunny sphere
  unfold run
  generalize (init E env bunny sphere).2 = w0 at hinit
  induction events generalizing w0 with
  | nil => exact hinit
  | cons e events ih =>
    apply ih
    cases e with
    | randomize =>
      exact updateCSG_transformsFresh E env _ (randomizeBrushes_transformsFresh env w0 hinit)
    | operationChanged op =>
      exact updateCSG_transformsFresh E env _ hinit

/-- C7: in every state reached from startup (`init`, then any sequence of randomize and
operator-changed events) every operand of every evaluator call made so far (the base
solid, the pool brushes and the intermediate composites made by `new Brush`) was a solid
whose world transform equals the matrix recomputed from its position, rotation and scale;
and every pool brush and the base solid have such an up-to-date world transform. -/
theorem run_operands_have_fresh_transforms (E : Evaluator) (env : Env)
    (bunny sphere : List Vector3) (events : List Event) :
    (∀ c ∈ (run E env bunny sphere events).calls,
      ∃ a b, c.a = some a ∧ c.b = some b ∧
        a.matrixWorld = Matrix4.compose a.position a.quaternion a.scale ∧
        b.matrixWorld = Matrix4.compose b.position b.quaternion b.scale) ∧
    (∀ b ∈ (run E env bunny sphere events).brushes,
      b.matrixWorld = Matrix4.compose b.position b.quaternion b.scale) ∧
    (run E env bunny sphere events).bunnyBrush.matrixWorld =
      Matrix4.compose (run E env bunny sphere events).bunnyBrush.position
        (run E env bunny sphere events).bunnyBrush.quaternion
        (run E env bunny sphere events).bunnyBrush.scale := by
  obtain ⟨h1, h2, _, h4⟩ := run_transformsFresh E env bunny sphere events
  exact ⟨h4, h2, h1⟩

end GeometryExample
